import Mathlib

/-!
Verification of the day16 valve-search core (`src/day16`): the graph
normalizer (`lib.rs`), the Floyd–Warshall all-pairs distance solver, the
agent state machine, the heuristic estimator and the best-first search
driver (`search.rs`), and the dynamic-programming reference solver
(`dynamic_programming.rs`).

Machine integers (`u32`, `usize`) are modelled as `Nat`; the source's
`saturating_add` / `saturating_sub` are modelled explicitly (`satAdd`,
truncated subtraction).  Rust's `BitSet` is modelled as a strictly sorted
`List Nat` (matching the bitset's ascending iteration order).  Rust's
panicking index `v[i]` is modelled with `getD` and a default; no theorem
below depends on the out-of-range behaviour of an index expression.
-/

namespace Day16

/-- `u32::MAX`, the "infinity" sentinel used by the distance solver. -/
def U32MAX : Nat := 4294967295

/-- Model of `u32::saturating_add`. -/
def satAdd (a b : Nat) : Nat := min (a + b) U32MAX

/-- Model of `NormalizedValve` from `lib.rs`. -/
structure NormalizedValve where
  id : Nat
  flow_rate : Nat
  exits : List Nat
deriving DecidableEq, Repr

/-- Default valve record, standing in for Rust's panic on `valves[id]`
with an out-of-range `id`; no theorem relies on this case. -/
def defaultValve : NormalizedValve := ⟨0, 0, []⟩

/-- Look up `valves[id]`. -/
def getValve (valves : List NormalizedValve) (i : Nat) : NormalizedValve :=
  valves.getD i defaultValve

/-! ### BitSet model: strictly sorted duplicate-free list of ids -/

/-- Insert an id into a sorted id list (model of `BitSet::insert`);
idempotent, keeps ascending order. -/
def bsInsert (i : Nat) : List Nat → List Nat
  | [] => [i]
  | j :: rest =>
    if i < j then i :: j :: rest
    else if i = j then j :: rest
    else j :: bsInsert i rest

/-- Remove an id from an id list (model of `BitSet::remove`). -/
def bsRemove (i : Nat) (l : List Nat) : List Nat := l.filter (fun j => j ≠ i)

/-- Membership test (model of `BitSet::contains`). -/
def bsContains (l : List Nat) (i : Nat) : Bool := l.contains i

/-- Model of `get_current_flow` from `lib.rs`: the summed flow rate of the
open valves. -/
def get_current_flow (open_ : List Nat) (valves : List NormalizedValve) : Nat :=
  (open_.map (fun i => (getValve valves i).flow_rate)).sum

/-! ### All-pairs shortest paths (`search.rs` lines 8–34) -/

/-- Read entry `m[i][j]` of a matrix. -/
def mget (m : List (List Nat)) (i j : Nat) : Nat := (m.getD i []).getD j 0

/-- Write entry `m[i][j]` of a matrix. -/
def mset (m : List (List Nat)) (i j v : Nat) : List (List Nat) :=
  m.set i ((m.getD i []).set j v)

/-- One Floyd–Warshall relaxation: `costs[i][j] := costs[i][k] + costs[k][j]`
when that (saturating) sum is smaller. -/
def fwRelax (k i j : Nat) (m : List (List Nat)) : List (List Nat) :=
  if satAdd (mget m i k) (mget m k j) < mget m i j then
    mset m i j (satAdd (mget m i k) (mget m k j))
  else m

/-- Model of `floyd_warshall` from `search.rs`: the triple `k`/`i`/`j` loop
of relaxations. -/
def floyd_warshall (costs : List (List Nat)) : List (List Nat) :=
  let n := costs.length
  (List.range n).foldl
    (fun m k =>
      (List.range n).foldl
        (fun m i =>
          (List.range n).foldl (fun m j => fwRelax k i j m) m)
        m)
    costs

/-- Initial cost matrix of `all_pairs_shortest`: `u32::MAX` everywhere,
then `costs[i][exit] = 1` for every listed exit.  The diagonal is not
touched. -/
def initialCosts (valves : List NormalizedValve) : List (List Nat) :=
  let n := valves.length
  (List.range n).foldl
    (fun m i =>
      ((valves.getD i defaultValve).exits).foldl (fun m e => mset m i e 1) m)
    ((List.range n).map (fun _ => (List.range n).map (fun _ => U32MAX)))

/-- Model of `all_pairs_shortest` from `search.rs`. -/
def all_pairs_shortest (valves : List NormalizedValve) : List (List Nat) :=
  floyd_warshall (initialCosts valves)

/-! ### Agent state machine (`search.rs` lines 36–156)

The Rust field names `at`/`to` are Lean keywords/near-keywords, so both
location fields are called `loc` here; `time_left` keeps its name.
-/

/-- Model of `PlayerState`: `Wait { at, time_left }`,
`Travel { to, time_left }`, `Open { at, time_left }`. -/
inductive PlayerState where
  | Wait (loc : Nat) (time_left : Nat)
  | Travel (loc : Nat) (time_left : Nat)
  | Open (loc : Nat) (time_left : Nat)
deriving DecidableEq, Repr

/-- Model of `TIME_TO_OPEN_VALVE`. -/
def TIME_TO_OPEN_VALVE : Nat := 1

/-- Model of `PlayerState::get_time_till_action`. -/
def PlayerState.get_time_till_action : PlayerState → Nat
  | .Wait _ t => t
  | .Travel _ t => t
  | .Open _ t => t

/-- Model of `PlayerState::destination`. -/
def PlayerState.destination : PlayerState → Nat
  | .Wait l _ => l
  | .Travel l _ => l
  | .Open l _ => l

/-- Model of `PlayerState::tick`: `time_left.saturating_sub(time_passed)`. -/
def PlayerState.tick (time_passed : Nat) : PlayerState → PlayerState
  | .Wait l t => .Wait l (t - time_passed)
  | .Travel l t => .Travel l (t - time_passed)
  | .Open l t => .Open l (t - time_passed)

/-- Model of the global `State` from `search.rs`. -/
structure State where
  player_states : List PlayerState
  opened_valves : List Nat
  closed_valves : List Nat
  accumulated_flow : Nat
  time_left : Nat
  estimated_total_flow : Nat
deriving DecidableEq, Repr

/-- Destinations of all players of a state
(`state.player_states.iter().map(destination).collect::<BitSet>()`). -/
def otherPlayerDestinations (s : State) : List Nat :=
  s.player_states.foldl (fun acc p => bsInsert p.destination acc) []

/-- The accessible closed valves of an idle agent at `loc`: closed valves
whose table entry has positive flow, distance below the global
`time_left`, and whose id is no player's current destination
(`search.rs` lines 104–111). -/
def accessibleClosedValves (s : State) (valves : List NormalizedValve)
    (distance_to : List Nat) : List NormalizedValve :=
  ((s.closed_valves.map (fun vid => getValve valves vid)).filter
    (fun v => distance_to.getD v.id 0 < s.time_left)).filter
    (fun v => 0 < v.flow_rate && !(bsContains (otherPlayerDestinations s) v.id))

/-- Model of `PlayerState::get_next_states` (`search.rs` lines 82–155). -/
def PlayerState.get_next_states (p : PlayerState) (s : State)
    (valves : List NormalizedValve) (distances : List (List Nat)) :
    List PlayerState :=
  match p with
  | .Wait loc time_left =>
    if time_left ≠ 0 then [p]
    else
      let distance_to := distances.getD loc []
      let results := (accessibleClosedValves s valves distance_to).map
        (fun v => PlayerState.Travel v.id (distance_to.getD v.id 0))
      if results.isEmpty then
        if s.time_left = 0 then [] else [PlayerState.Wait loc s.time_left]
      else results
  | .Travel loc time_left =>
    if time_left = 0 then [PlayerState.Open loc TIME_TO_OPEN_VALVE] else [p]
  | .Open loc time_left =>
    if time_left = 0 then [PlayerState.Wait loc 0] else [p]

/-! ### Heuristic estimator (`search.rs` lines 188–226) -/

/-- Insert a valve into a list sorted ascending by `flow_rate`, after all
entries with an equal or smaller key: together with the left fold below
this reproduces the stable `sort_by_key(|v| v.flow_rate)`. -/
def sortInsert (v : NormalizedValve) : List NormalizedValve → List NormalizedValve
  | [] => [v]
  | w :: rest =>
    if w.flow_rate ≤ v.flow_rate then w :: sortInsert v rest else v :: w :: rest

/-- Stable sort ascending by `flow_rate`. -/
def sortByFlow (l : List NormalizedValve) : List NormalizedValve :=
  l.foldl (fun acc v => sortInsert v acc) []

/-- The inner `for _ in 0..player_count` loop of the heuristic: pop up to
`p` valves off the stack into the opened set; the `Bool` is true when a
pop came back empty (the heuristic's early-return branch). -/
def heurPop : Nat → List Nat → List NormalizedValve →
    (List Nat × List NormalizedValve × Bool)
  | 0, opened, stack => (opened, stack, false)
  | q + 1, opened, stack =>
    match stack with
    | [] => (opened, [], true)
    | v :: rest => heurPop q (bsInsert v.id opened) rest

/-- The `for i in 0..self.time_left` loop of `estimated_flow_heuristic`.
`r` is the number of remaining iterations (`T - i`); the stack holds the
closed valves in descending flow order (Rust pops the ascending vector
from its end). -/
def heurAux (valves : List NormalizedValve) (p T : Nat) :
    Nat → Nat → List Nat → List NormalizedValve → Nat → Nat
  | 0, _, _, _, total => total
  | r + 1, i, opened, stack, total =>
    let cur := get_current_flow opened valves
    let total2 := total + cur
    if i % 2 = 0 then
      match heurPop p opened stack with
      | (opened2, stack2, early) =>
        if early then total2 + cur * (T - i - 1)
        else heurAux valves p T r (i + 1) opened2 stack2 total2
    else heurAux valves p T r (i + 1) opened stack total2

/-- Model of `State::estimated_flow_heuristic`. -/
def State.estimated_flow_heuristic (s : State) (valves : List NormalizedValve) : Nat :=
  let sorted := sortByFlow (s.closed_valves.map (getValve valves))
  heurAux valves s.player_states.length s.time_left
    s.time_left 0 s.opened_valves sorted.reverse 0

/-- Model of `State::update_estimated_total_flow`. -/
def State.update_estimated_total_flow (s : State) (valves : List NormalizedValve) : State :=
  { s with estimated_total_flow := s.accumulated_flow + s.estimated_flow_heuristic valves }

/-! ### Global state transitions (`search.rs` lines 228–289) -/

/-- Model of `State::get_time_till_action`: minimum player countdown,
`unwrap_or(0)`. -/
def State.get_time_till_action (s : State) : Nat :=
  ((s.player_states.map PlayerState.get_time_till_action).min?).getD 0

/-- Model of `State::tick` (as a pure function on the state). -/
def State.tick (s : State) (valves : List NormalizedValve) : State :=
  let time_passed := s.get_time_till_action
  let current_flow := get_current_flow s.opened_valves valves
  { s with
    accumulated_flow := s.accumulated_flow + current_flow * min time_passed s.time_left
    time_left := s.time_left - time_passed
    player_states := s.player_states.map (PlayerState.tick time_passed) }

/-- Model of `State::apply_player_actions`: every `Open { at, time_left: 0 }`
agent moves its valve from the closed set to the opened set. -/
def State.apply_player_actions (s : State) : State :=
  s.player_states.foldl
    (fun st p =>
      match p with
      | .Open l 0 =>
        { st with
          opened_valves := bsInsert l st.opened_valves
          closed_valves := bsRemove l st.closed_valves }
      | _ => st)
    s

/-- Model of `State::get_next_states`: cross-product of the players'
candidate moves, then re-estimate every combination. -/
def State.get_next_states (s : State) (valves : List NormalizedValve)
    (distances : List (List Nat)) : List State :=
  let combos := s.player_states.foldl
    (fun states p =>
      (p.get_next_states s valves distances).flatMap
        (fun nextP =>
          states.map (fun st =>
            { st with player_states := st.player_states ++ [nextP] })))
    [{ s with player_states := [] }]
  combos.map (fun st => st.update_estimated_total_flow valves)

/-! ### Best-first search driver (`search.rs` lines 304–347) -/

/-- Extract a maximal-`estimated_total_flow` element from the queue,
modelling `BinaryHeap::pop` (Rust leaves the order among equal keys
unspecified; this model takes the earliest maximal element). -/
def popMax : List State → Option (State × List State)
  | [] => none
  | s :: rest =>
    match popMax rest with
    | none => some (s, [])
    | some (m, r) =>
      if s.estimated_total_flow < m.estimated_total_flow then some (m, s :: r)
      else some (s, rest)

/-- The loop body's child computation: the states the driver pushes
candidates from after popping `s` — tick, apply finished valve openings,
expand through the cross-product composer. -/
def searchChildren (valves : List NormalizedValve) (distances : List (List Nat))
    (s : State) : List State :=
  ((s.tick valves).apply_player_actions).get_next_states valves distances

/-- The `while let Some(state) = queue.pop()` loop of
`find_optimal_total_flow`, with explicit fuel: `none` means the fuel ran
out before the queue emptied, `some best` that the loop finished. -/
def searchRun (valves : List NormalizedValve) (distances : List (List Nat)) :
    Nat → List State → Nat → Option Nat
  | 0, q, best =>
    match popMax q with
    | none => some best
    | some _ => none
  | f + 1, q, best =>
    match popMax q with
    | none => some best
    | some (s, rest) =>
      let best2 := max best ((s.tick valves).accumulated_flow)
      let keep := (searchChildren valves distances s).filter
        (fun c => best2 < c.estimated_total_flow)
      searchRun valves distances f (rest ++ keep) best2

/-- The initial search state of `find_optimal_total_flow`: every agent
idle at its start id, everything closed, `u32::MAX` as the estimate
sentinel. -/
def searchInit (starting_ats : List Nat) (valves : List NormalizedValve)
    (time_left : Nat) : State :=
  { player_states := starting_ats.map (fun a => PlayerState.Wait a 0)
    opened_valves := []
    closed_valves := List.range valves.length
    accumulated_flow := 0
    time_left := time_left
    estimated_total_flow := U32MAX }

/-- Model of `search::find_optimal_total_flow`, with explicit fuel for
the driver loop. -/
def find_optimal_total_flow (starting_ats : List Nat)
    (valves : List NormalizedValve) (time_left fuel : Nat) : Option Nat :=
  searchRun valves (all_pairs_shortest valves) fuel
    [searchInit starting_ats valves time_left] 0

/-! ### Dynamic-programming solver (`dynamic_programming.rs`)

The memoization cache of `get_optimal_total_flow_internal` only stores
previously computed values of the same pure recursion, so it is dropped
here: the embedding is the cache-free recursion on `time_left`.
-/

/-- Model of `get_optimal_total_flow_internal` (cache-free): at each
minute, collect the current flow and either open the current valve (if
closed with positive flow) or move along one exit. -/
def dpFind (valves : List NormalizedValve) : Nat → Nat → List Nat → Nat
  | 0, _, _ => 0
  | t + 1, loc, open_ =>
    let current_flow := get_current_flow open_ valves
    let current_valve := getValve valves loc
    let score_after_opening :=
      if !(bsContains open_ current_valve.id) && 0 < current_valve.flow_rate then
        dpFind valves t loc (bsInsert current_valve.id open_)
      else 0
    let scores_after_moving := current_valve.exits.map (fun e => dpFind valves t e open_)
    current_flow + max (scores_after_moving.max?.getD 0) score_after_opening

namespace dynamic_programming

/-- Model of `dynamic_programming::find_optimal_total_flow`. -/
def find_optimal_total_flow (starting_at : Nat) (valves : List NormalizedValve)
    (time_left : Nat) : Nat :=
  dpFind valves time_left starting_at []

end dynamic_programming

/-! ### Graph normalizer (`lib.rs` lines 10–99) -/

/-- Model of the textual `Valve` record of `lib.rs`. -/
structure Valve where
  id : String
  flow_rate : Nat
  exits : List String
deriving DecidableEq, Repr

/-- The name stream `normalize_valves` walks: all declared names first,
then every neighbor reference (`iter().map(id).chain(flat_map(exits))`). -/
def allNames (valves : List Valve) : List String :=
  valves.map Valve.id ++ valves.flatMap Valve.exits

/-- One step of the first-seen id assignment: a fresh name is appended
to the mapping with the running counter as its id. -/
def mappingStep (mc : List (String × Nat) × Nat) (name : String) :
    List (String × Nat) × Nat :=
  if (mc.1.lookup name).isSome then mc else (mc.1 ++ [(name, mc.2)], mc.2 + 1)

/-- First-seen id assignment, seeded with `AA ↦ 0`: the model of the
`HashMap` built by `normalize_valves` as an association list. -/
def buildMapping (valves : List Valve) : List (String × Nat) × Nat :=
  (allNames valves).foldl mappingStep ([("AA", 0)], 1)

/-- Insert a valve into a list sorted ascending by `id`, after all
entries with an equal or smaller id (stable, like `sort_by_key`). -/
def sortInsertById (v : NormalizedValve) : List NormalizedValve → List NormalizedValve
  | [] => [v]
  | w :: rest => if w.id ≤ v.id then w :: sortInsertById v rest else v :: w :: rest

/-- Stable sort ascending by `id`. -/
def sortById (l : List NormalizedValve) : List NormalizedValve :=
  l.foldl (fun acc v => sortInsertById v acc) []

/-- Model of `normalize_valves`: one output entry per input valve, names
replaced by their assigned ids, sorted by id.  The `getD 0` stands for
the source's `expect("impossible")`: the mapping covers every declared
and referenced name, so the lookups always succeed. -/
def normalize_valves (valves : List Valve) : List NormalizedValve :=
  sortById (valves.map (fun v =>
    { id := ((buildMapping valves).1.lookup v.id).getD 0
      flow_rate := v.flow_rate
      exits := v.exits.map (fun e => ((buildMapping valves).1.lookup e).getD 0) }))

/-! ### Definitions modelled from the spec

The spec's claims compare the code against the puzzle's domain semantics
and against the spec's own wording of the idle transition; the two
definitions below are written from the spec's words (not from the
source) for those comparisons only.
-/

/-- An action of the spec's single-agent minute semantics. -/
inductive SpecAction where
  | Move (dest : Nat)
  | OpenValve
  | Stay
deriving DecidableEq, Repr

/-- Modelled from the spec: the single-agent domain semantics behind
"the maximum total flow achievable" (§1, §6): each tick the agent either
moves along one tunnel, spends the tick opening the valve it stands on,
or idles; every tick first collects the flow of the currently open
valves.  A `Move` to a non-exit and an `OpenValve` on an open valve act
as `Stay` so that every action list denotes a legal schedule. -/
def specScheduleFlow (valves : List NormalizedValve) :
    Nat → Nat → List Nat → List SpecAction → Nat
  | 0, _, _, _ => 0
  | t + 1, loc, open_, acts =>
    let cur := get_current_flow open_ valves
    match acts with
    | [] => cur + specScheduleFlow valves t loc open_ []
    | a :: rest =>
      match a with
      | .Stay => cur + specScheduleFlow valves t loc open_ rest
      | .OpenValve => cur + specScheduleFlow valves t loc (bsInsert loc open_) rest
      | .Move dest =>
        if (getValve valves loc).exits.contains dest then
          cur + specScheduleFlow valves t dest open_ rest
        else cur + specScheduleFlow valves t loc open_ rest

/-- Modelled from the spec (§4.4): "From `Idle{at}`: enumerate every
closed valve with positive flow rate reachable within `time_left`, not already
claimed as ANOTHER agent's current destination; each candidate becomes
`Travelling{to: valve, time_left: distance[at][valve]}`.  If no
candidate exists, the agent stays Idle (effectively waiting out the
remaining time)."  `otherDests` is the destination set of the OTHER
agents, excluding the transitioning agent itself. -/
def specIdleNextStates (s : State) (valves : List NormalizedValve)
    (distances : List (List Nat)) (loc : Nat) (otherDests : List Nat) :
    List PlayerState :=
  let distance_to := distances.getD loc []
  let results := (((s.closed_valves.map (fun vid => getValve valves vid)).filter
      (fun v => distance_to.getD v.id 0 < s.time_left)).filter
      (fun v => 0 < v.flow_rate && !(bsContains otherDests v.id))).map
    (fun v => PlayerState.Travel v.id (distance_to.getD v.id 0))
  if results.isEmpty then [PlayerState.Wait loc s.time_left] else results

/-! ### Concrete instances used by the theorems below -/

/-- One valve with flow 5 and no exits. -/
def soloValve : List NormalizedValve := [⟨0, 5, []⟩]

/-- One valve with flow 5 and a self-loop tunnel. -/
def loopValve : List NormalizedValve := [⟨0, 5, [0]⟩]

/-- The two-valve graph of the repository's `test_parse_valves` (AA with
flow 0, BB with flow 13, connected both ways). -/
def twoValves : List NormalizedValve := [⟨0, 0, [1]⟩, ⟨1, 13, [0]⟩]

/-- Three mutually connected valves with flows 5, 7 and 10. -/
def triValves : List NormalizedValve := [⟨0, 5, [1, 2]⟩, ⟨1, 7, [0, 2]⟩, ⟨2, 10, [0, 1]⟩]

/-- Distance matrix of `triValves`. -/
def triDists : List (List Nat) := all_pairs_shortest triValves

/-- A two-agent state the driver creates in its first expansion on
`triValves` with both agents starting at valve 0 and budget 30: both
agents en route, everything closed, heuristic estimate 493. -/
def triState0 : State := ⟨[.Travel 1 1, .Travel 2 1], [], [0, 1, 2], 0, 30, 493⟩

/-- Successors of `triState0` along the run: both agents opening. -/
def triState1 : State := ⟨[.Open 1 1, .Open 2 1], [], [0, 1, 2], 0, 29, 476⟩

/-- ... valves 1 and 2 now open, agents idle. -/
def triState2 : State := ⟨[.Wait 1 0, .Wait 2 0], [1, 2], [0], 0, 28, 476⟩

/-- ... both agents travelling back to valve 0. -/
def triState3 : State := ⟨[.Travel 0 1, .Travel 0 1], [1, 2], [0], 0, 28, 476⟩

/-- ... both agents opening valve 0, 17 flow collected. -/
def triState4 : State := ⟨[.Open 0 1, .Open 0 1], [1, 2], [0], 17, 27, 476⟩

/-- ... all three valves open, 34 flow collected, 26 ticks left. -/
def triState5 : State := ⟨[.Wait 0 0, .Wait 0 0], [0, 1, 2], [], 34, 26, 606⟩

/-- ... both agents parked until the clock runs out. -/
def triState6 : State := ⟨[.Wait 0 26, .Wait 0 26], [0, 1, 2], [], 34, 26, 606⟩

/-- A single-agent state standing on the closed self-loop valve of
`loopValve`, 5 ticks on the clock. -/
def selfState : State := ⟨[.Wait 0 0], [], [0], 0, 5, 0⟩

/-- A single-agent state at valve 0 of `twoValves`, everything closed,
9 ticks on the clock. -/
def pairState : State := ⟨[.Wait 0 0], [], [0, 1], 0, 9, 0⟩

/-! ### Predicates used by the proofs -/

/-- A well-shaped `n × n` matrix. -/
def MatShape (n : Nat) (m : List (List Nat)) : Prop :=
  m.length = n ∧ ∀ row ∈ m, row.length = n

/-- Every entry of the matrix is at least 1. -/
def EntriesPos (m : List (List Nat)) : Prop :=
  ∀ row ∈ m, ∀ x ∈ row, 1 ≤ x

/-- The total flow rate of the valve table: `sum(flow_rate)`. -/
def sumFlow (valves : List NormalizedValve) : Nat :=
  (valves.map NormalizedValve.flow_rate).sum

/-- A strictly ascending id list — the canonical-form invariant of the
bitset model. -/
def SortedLt (l : List Nat) : Prop := List.Pairwise (· < ·) l

/-! ### Termination measure for the search loop

`xi` assigns each agent a potential (relative to the state's remaining
time `T`), chosen so that every transition of the loop body shrinks the
lexicographic pair (remaining time, summed potential); `preSpent`
flattens that pair into a single natural number.
-/

/-- Per-agent potential at remaining time `T`. -/
def xi (T : Nat) : PlayerState → Nat
  | .Wait _ 0 => if T = 0 then 0 else 3 * T + 8
  | .Wait _ (tl + 1) => tl + 9
  | .Travel _ tl => 3 * tl + 6
  | .Open _ 0 => 3 * T + 9
  | .Open _ (tl + 1) => 3 * (tl + 1) + 1

/-- Summed agent potential. -/
def sigma (T : Nat) (ps : List PlayerState) : Nat := (ps.map (xi T)).sum

/-- Upper bound for the potential a whole state can carry once its
remaining time has dropped strictly below `T` (with `p0` agents). -/
def preSpent (p0 T : Nat) : Nat :=
  ∑ t ∈ Finset.range T, (3 * p0 * t + 9 * p0 + 1)

/-- The loop measure of a search state. -/
def measureState (p0 : Nat) (s : State) : Nat :=
  preSpent p0 s.time_left + sigma s.time_left s.player_states

/-- The structural invariant each agent of a queued state satisfies:
countdowns of waiting and travelling agents never exceed the remaining
time, and an opening agent's countdown is at most 1. -/
def playerInvEntry (T : Nat) : PlayerState → Prop
  | .Wait _ tl => tl ≤ T
  | .Travel _ tl => tl ≤ T
  | .Open _ tl => tl ≤ 1

/-- All agents of a list satisfy the structural invariant. -/
def PlayersInv (T : Nat) (ps : List PlayerState) : Prop :=
  ∀ p ∈ ps, playerInvEntry T p

/-- The invariant of every state in the driver's queue: `p0` agents
(with `p0 > 0` when the start list is non-empty), agent countdowns in
range, and no more closed valves than the table has. -/
def StateInv (p0 n : Nat) (s : State) : Prop :=
  s.player_states.length = p0 ∧ PlayersInv s.time_left s.player_states ∧
    s.closed_valves.length ≤ n

/-- The queue potential: every queued state contributes exponentially
in its measure, with base `B`. -/
def queuePhi (B p0 : Nat) (q : List State) : Nat :=
  (q.map (fun s => B ^ (measureState p0 s + 1))).sum

/-- Queue invariant of the flow-bound proof: every queued state has a
canonical (strictly sorted) opened set and respects the flow budget of
the initial time `T0`. -/
def QueueInv (valves : List NormalizedValve) (T0 : Nat) (q : List State) : Prop :=
  ∀ s ∈ q, SortedLt s.opened_valves ∧
    s.accumulated_flow + sumFlow valves * s.time_left ≤ sumFlow valves * T0

/-! ## Helper lemmas about the distance matrices -/

theorem mget_mem_of_shape {n : Nat} {m : List (List Nat)} (hs : MatShape n m)
    {i j : Nat} (hi : i < n) (hj : j < n) :
    ∃ row ∈ m, mget m i j ∈ row := by
  obtain ⟨hlen, hrows⟩ := hs
  have hi2 : i < m.length := by omega
  have hmem : m[i] ∈ m := List.getElem_mem hi2
  refine ⟨m[i], hmem, ?_⟩
  have hjl : j < (m[i]).length := by rw [hrows m[i] hmem]; exact hj
  have hm : mget m i j = (m[i]).getD j 0 := by
    rw [mget, List.getD_eq_getElem m [] hi2]
  rw [hm, List.getD_eq_getElem _ 0 hjl]
  exact List.getElem_mem hjl

theorem one_le_mget {n : Nat} {m : List (List Nat)} (hs : MatShape n m)
    (he : EntriesPos m) {i j : Nat} (hi : i < n) (hj : j < n) :
    1 ≤ mget m i j := by
  obtain ⟨row, hrow, hmem⟩ := mget_mem_of_shape hs hi hj
  exact he row hrow _ hmem

theorem matShape_mset {n : Nat} {m : List (List Nat)} (hs : MatShape n m)
    {i : Nat} (hi : i < n) (j v : Nat) : MatShape n (mset m i j v) := by
  obtain ⟨hlen, hrows⟩ := hs
  refine ⟨by rw [mset, List.length_set]; exact hlen, ?_⟩
  intro row hr
  rcases List.mem_or_eq_of_mem_set hr with h | h
  · exact hrows row h
  · subst h
    rw [List.length_set]
    have hi2 : i < m.length := by omega
    rw [List.getD_eq_getElem m [] hi2]
    exact hrows _ (List.getElem_mem hi2)

theorem entriesPos_mset {m : List (List Nat)} (he : EntriesPos m)
    {v : Nat} (hv : 1 ≤ v) (i j : Nat) : EntriesPos (mset m i j v) := by
  intro row hr x hx
  rcases List.mem_or_eq_of_mem_set hr with h | h
  · exact he row h x hx
  · subst h
    rcases List.mem_or_eq_of_mem_set hx with h2 | h2
    · by_cases hi : i < m.length
      · refine he _ ?_ x h2
        rw [List.getD_eq_getElem m [] hi]
        exact List.getElem_mem hi
      · rw [List.getD_eq_default m [] (by omega)] at h2
        cases h2
    · subst h2; exact hv

theorem fwRelax_pres {n : Nat} {m : List (List Nat)} (hs : MatShape n m)
    (he : EntriesPos m) {k i j : Nat} (hk : k < n) (hi : i < n) :
    MatShape n (fwRelax k i j m) ∧ EntriesPos (fwRelax k i j m) := by
  rw [fwRelax]
  split
  · have h1 : 1 ≤ mget m i k := one_le_mget hs he hi hk
    have hv : 1 ≤ satAdd (mget m i k) (mget m k j) := by
      rw [satAdd]
      refine Nat.le_min.mpr ⟨by omega, by norm_num [U32MAX]⟩
    exact ⟨matShape_mset hs hi _ _, entriesPos_mset he hv _ _⟩
  · exact ⟨hs, he⟩

theorem floyd_warshall_pres {costs : List (List Nat)}
    (hs : MatShape costs.length costs) (he : EntriesPos costs) :
    MatShape costs.length (floyd_warshall costs) ∧
      EntriesPos (floyd_warshall costs) := by
  rw [floyd_warshall]
  refine @List.foldlRecOn _ _
    (fun m => MatShape costs.length m ∧ EntriesPos m) _ _ _ ⟨hs, he⟩ ?_
  intro m hm k hk
  refine @List.foldlRecOn _ _
    (fun m => MatShape costs.length m ∧ EntriesPos m) _ _ _ hm ?_
  intro m2 hm2 i hi
  refine @List.foldlRecOn _ _
    (fun m => MatShape costs.length m ∧ EntriesPos m) _ _ _ hm2 ?_
  intro m3 hm3 j hj
  exact fwRelax_pres hm3.1 hm3.2 (List.mem_range.mp hk) (List.mem_range.mp hi)

theorem initialCosts_pres (valves : List NormalizedValve) :
    MatShape valves.length (initialCosts valves) ∧
      EntriesPos (initialCosts valves) := by
  have hbase :
      MatShape valves.length
          ((List.range valves.length).map
            (fun _ => (List.range valves.length).map (fun _ => U32MAX))) ∧
        EntriesPos
          ((List.range valves.length).map
            (fun _ => (List.range valves.length).map (fun _ => U32MAX))) := by
    refine ⟨⟨by simp, ?_⟩, ?_⟩
    · intro row hr
      simp only [List.mem_map] at hr
      obtain ⟨a, _, rfl⟩ := hr
      simp
    · intro row hr x hx
      simp only [List.mem_map] at hr
      obtain ⟨a, _, rfl⟩ := hr
      simp only [List.mem_map] at hx
      obtain ⟨b, _, rfl⟩ := hx
      norm_num [U32MAX]
  rw [initialCosts]
  refine @List.foldlRecOn _ _
    (fun m => MatShape valves.length m ∧ EntriesPos m) _ _ _ hbase ?_
  intro m hm i hi
  refine @List.foldlRecOn _ _
    (fun m => MatShape valves.length m ∧ EntriesPos m) _ _ _ hm ?_
  intro m2 hm2 e _
  exact ⟨matShape_mset hm2.1 (List.mem_range.mp hi) _ _,
    entriesPos_mset hm2.2 (by norm_num) _ _⟩

/-! ## Claim C3 -/

/-- C3 (counterexample): the claim asserts `distance[i][i] == 0` for
every valid index; on the one-valve table with no exits,
`all_pairs_shortest` leaves `distance[0][0]` at the `u32::MAX` infinity
sentinel, because the initialization never zeroes the diagonal. -/
theorem C3_counterexample :
    mget (all_pairs_shortest soloValve) 0 0 = U32MAX ∧
      mget (all_pairs_shortest soloValve) 0 0 ≠ 0 := by decide

/-- C3 (amended): `all_pairs_shortest` initializes `distance[i][j] = 1`
for direct exits and infinity otherwise — it never initializes the
diagonal to 0 — so every entry of the computed matrix, the diagonal
included, is at least 1 (the diagonal holds the length of a shortest
nonempty cycle, or remains infinity), never 0. -/
theorem C3_diagonal_never_zero (valves : List NormalizedValve) (i : Nat)
    (hi : i < valves.length) : 1 ≤ mget (all_pairs_shortest valves) i i := by
  obtain ⟨hs0, he0⟩ := initialCosts_pres valves
  have hlen : (initialCosts valves).length = valves.length := hs0.1
  rw [all_pairs_shortest]
  rw [← hlen] at hi hs0
  obtain ⟨hs, he⟩ := floyd_warshall_pres hs0 he0
  exact one_le_mget hs he hi hi

/-- C3 (witness): the amended statement evaluated on the one-valve
table. -/
theorem C3_witness :
    0 < soloValve.length ∧ 1 ≤ mget (all_pairs_shortest soloValve) 0 0 :=
  ⟨by decide, C3_diagonal_never_zero soloValve 0 (by decide)⟩

/-! ## Claim C7 -/

/-- C7 (counterexample): the claim asserts `time_left` strictly
decreases on every tick until it reaches 0.  In the run on the one-valve
table with starts `[0]` and budget 3, the first state the driver pops is
the initial state, and ticking it leaves `time_left` unchanged at 3 (the
idle agent's countdown is 0, so zero time passes). -/
theorem C7_counterexample :
    popMax [searchInit [0] soloValve 3] =
        some (searchInit [0] soloValve 3, []) ∧
      ((searchInit [0] soloValve 3).tick soloValve).time_left = 3 ∧
      (searchInit [0] soloValve 3).time_left = 3 := by decide

/-- C7 (amended): along every popped-and-ticked sequence, `time_left`
never increases across a tick (and, being a `Nat` model of `u32` with
saturating subtraction, is never negative); it does not strictly
decrease on zero-duration ticks. -/
theorem C7_time_left_monotone (valves : List NormalizedValve) (s : State) :
    (s.tick valves).time_left ≤ s.time_left := Nat.sub_le _ _

/-! ## Claim C9 -/

/-- C9 (counterexample): the two implementations disagree on the
one-valve table (flow 5, no exits) with budget 3: the dynamic program
opens the start valve and returns 5, while the search never schedules
the valve an agent stands on and returns 0. -/
theorem C9_counterexample :
    dynamic_programming.find_optimal_total_flow 0 soloValve 3 = 5 ∧
      find_optimal_total_flow [0] soloValve 3 100 = some 0 ∧
      (5 : Nat) ≠ 0 := by decide

/-- C9 (amended): the two implementations are not equivalent for every
well-formed table (see the counterexample); on the two-valve
`AA(0) ↔ BB(13)` graph of the repository's own tests, with a single
agent at valve 0 and budget 6, they agree: both return 52. -/
theorem C9_agreement_two_valves :
    dynamic_programming.find_optimal_total_flow 0 twoValves 6 = 52 ∧
      find_optimal_total_flow [0] twoValves 6 100 = some 52 := by decide

/-! ## Claim C2 -/

set_option maxRecDepth 40000

/-- C2: the heuristic is not admissible.  On `triValves` (flows 5, 7,
10, fully connected) with two agents starting at valve 0 and budget 30,
the driver's first expansion creates `triState0`, whose estimate is
`0 + 493`; yet following the code's own tick/apply/expand transitions
from `triState0` (each step below is the unique child) reaches a state
whose tick accumulates 606 > 493 total flow, so the bound discards a
real continuation.  The underestimate comes from the heuristic's early
return, which multiplies the remaining ticks by a `current_flow` that
ignores the valves popped in the current batch. -/
theorem C2_heuristic_not_admissible :
    triState0 ∈ searchChildren triValves triDists (searchInit [0, 0] triValves 30) ∧
      triState0.accumulated_flow + triState0.estimated_flow_heuristic triValves = 493 ∧
      triState0.estimated_total_flow = 493 ∧
      searchChildren triValves triDists triState0 = [triState1] ∧
      searchChildren triValves triDists triState1 = [triState2] ∧
      searchChildren triValves triDists triState2 = [triState3] ∧
      searchChildren triValves triDists triState3 = [triState4] ∧
      searchChildren triValves triDists triState4 = [triState5] ∧
      searchChildren triValves triDists triState5 = [triState6] ∧
      (triState6.tick triValves).accumulated_flow = 606 ∧
      (493 : Nat) < 606 := by decide

/-! ## Helper lemmas about the destination set and the idle transition -/

theorem mem_bsInsert_self (i : Nat) (l : List Nat) : i ∈ bsInsert i l := by
  induction l with
  | nil => simp [bsInsert]
  | cons j rest ih =>
    rw [bsInsert]
    by_cases h1 : i < j
    · simp [h1]
    · by_cases h2 : i = j
      · simp [h1, h2]
      · simp [h1, h2, ih]

theorem mem_bsInsert_of_mem {x : Nat} {l : List Nat} (i : Nat) (h : x ∈ l) :
    x ∈ bsInsert i l := by
  induction l with
  | nil => cases h
  | cons j rest ih =>
    rw [bsInsert]
    rcases List.mem_cons.mp h with h | h
    · subst h
      by_cases h1 : i < x
      · simp [h1]
      · by_cases h2 : i = x <;> simp [h1, h2]
    · by_cases h1 : i < j
      · simp [h1, List.mem_cons.mpr (Or.inr h)]
      · by_cases h2 : i = j
        · simp [h1, h2, h]
        · simp only [h1, h2, if_false]
          exact List.mem_cons.mpr (Or.inr (ih h))

theorem mem_destinations_aux (ps : List PlayerState) (acc : List Nat) (x : Nat)
    (h : x ∈ acc ∨ ∃ p ∈ ps, p.destination = x) :
    x ∈ ps.foldl (fun acc p => bsInsert p.destination acc) acc := by
  induction ps generalizing acc with
  | nil =>
    rcases h with h | ⟨p, hp, _⟩
    · exact h
    · cases hp
  | cons q rest ih =>
    refine ih _ ?_
    rcases h with h | ⟨p, hp, hd⟩
    · exact Or.inl (mem_bsInsert_of_mem _ h)
    · rcases List.mem_cons.mp hp with h2 | h2
      · subst h2
        exact Or.inl (hd ▸ mem_bsInsert_self _ _)
      · exact Or.inr ⟨p, h2, hd⟩

/-- Any player's current destination is in the collected destination
set. -/
theorem destination_mem_otherPlayerDestinations {s : State} {p : PlayerState}
    (h : p ∈ s.player_states) : p.destination ∈ otherPlayerDestinations s :=
  mem_destinations_aux s.player_states [] p.destination (Or.inr ⟨p, h, rfl⟩)

/-- Membership in `accessibleClosedValves`, unfolded. -/
theorem mem_accessibleClosedValves {s : State} {valves : List NormalizedValve}
    {distance_to : List Nat} {v : NormalizedValve} :
    v ∈ accessibleClosedValves s valves distance_to ↔
      ∃ vid ∈ s.closed_valves, v = getValve valves vid ∧
        distance_to.getD v.id 0 < s.time_left ∧ 0 < v.flow_rate ∧
        v.id ∉ otherPlayerDestinations s := by
  simp only [accessibleClosedValves, List.mem_filter, List.mem_map,
    Bool.and_eq_true, decide_eq_true_eq, Bool.not_eq_true', bsContains]
  constructor
  · rintro ⟨⟨⟨vid, hvid, rfl⟩, hdist⟩, hflow, hcont⟩
    refine ⟨vid, hvid, rfl, by simpa using hdist, hflow, ?_⟩
    simpa using hcont
  · rintro ⟨vid, hvid, rfl, hdist, hflow, hcont⟩
    refine ⟨⟨⟨vid, hvid, rfl⟩, by simpa using hdist⟩, hflow, ?_⟩
    simpa using hcont

/-! ## Claim C10 -/

/-- C10: an idle agent's candidate set never contains the agent's own
location.  The destination filter collects the destinations of all
players of the state — including the transitioning agent itself, whose
`Wait` destination is its location — so no produced `Travel` candidate
targets `loc`. -/
theorem C10_no_travel_to_own_location (valves : List NormalizedValve)
    (distances : List (List Nat)) (s : State) (loc : Nat)
    (hmem : PlayerState.Wait loc 0 ∈ s.player_states) :
    ∀ q ∈ (PlayerState.Wait loc 0).get_next_states s valves distances,
      ∀ tl, q ≠ PlayerState.Travel loc tl := by
  intro q hq tl hEq
  subst hEq
  have hloc : loc ∈ otherPlayerDestinations s := by
    simpa [PlayerState.destination] using
      destination_mem_otherPlayerDestinations hmem
  rw [PlayerState.get_next_states] at hq
  simp only [ne_eq, not_true_eq_false, if_false] at hq
  split at hq
  · split at hq
    · cases hq
    · exact PlayerState.noConfusion (List.mem_singleton.mp hq)
  · simp only [List.mem_map] at hq
    obtain ⟨v, hv, hTravel⟩ := hq
    obtain ⟨_, _, _, _, _, hnot⟩ := mem_accessibleClosedValves.mp hv
    have : v.id = loc := by
      injection hTravel
    exact hnot (this ▸ hloc)

/-- C10 (witness): on `twoValves` from `pairState`, the produced
candidate `Travel 1 1` indeed does not target the agent's own valve 0. -/
theorem C10_witness :
    PlayerState.Travel 1 1 ≠ PlayerState.Travel 0 1 :=
  C10_no_travel_to_own_location twoValves (all_pairs_shortest twoValves)
    pairState 0 (by decide) (PlayerState.Travel 1 1) (by decide) 1

/-! ## Claim C8 -/

/-- Children of the cross-product composition keep the parent's opened
set, closed set, accumulated flow and remaining time. -/
theorem get_next_states_fields (s : State) (valves : List NormalizedValve)
    (distances : List (List Nat)) :
    ∀ c ∈ s.get_next_states valves distances,
      c.opened_valves = s.opened_valves ∧ c.closed_valves = s.closed_valves ∧
        c.accumulated_flow = s.accumulated_flow ∧ c.time_left = s.time_left := by
  intro c hc
  rw [State.get_next_states] at hc
  simp only [List.mem_map] at hc
  obtain ⟨st, hst, rfl⟩ := hc
  have main :
      ∀ st ∈ s.player_states.foldl
        (fun states p =>
          (p.get_next_states s valves distances).flatMap
            (fun nextP =>
              states.map (fun st =>
                { st with player_states := st.player_states ++ [nextP] })))
        [{ s with player_states := [] }],
      st.opened_valves = s.opened_valves ∧ st.closed_valves = s.closed_valves ∧
        st.accumulated_flow = s.accumulated_flow ∧ st.time_left = s.time_left := by
    refine @List.foldlRecOn _ _
      (fun states : List State => ∀ st : State, st ∈ states →
        st.opened_valves = s.opened_valves ∧ st.closed_valves = s.closed_valves ∧
          st.accumulated_flow = s.accumulated_flow ∧ st.time_left = s.time_left)
      _ _ _ ?_ ?_
    · intro st hst
      rcases List.mem_singleton.mp hst with rfl
      exact ⟨rfl, rfl, rfl, rfl⟩
    · intro states hstates p _ st hst
      simp only [List.mem_flatMap, List.mem_map] at hst
      obtain ⟨o, _, st0, hst0, rfl⟩ := hst
      exact hstates st0 hst0
  exact main st hst

/-- C8: every child produced by `State::get_next_states` carries the
parent's opened-valve set, closed-valve set, accumulated flow and
remaining time unchanged — only the player states and the recomputed
estimate differ; no flow accrues during action selection. -/
theorem C8_children_frame (s : State) (valves : List NormalizedValve)
    (distances : List (List Nat)) (c : State)
    (hc : c ∈ s.get_next_states valves distances) :
    c.opened_valves = s.opened_valves ∧ c.closed_valves = s.closed_valves ∧
      c.accumulated_flow = s.accumulated_flow ∧ c.time_left = s.time_left :=
  get_next_states_fields s valves distances c hc

/-- C8 (witness): the frame property evaluated on the concrete expansion
of `triState2`. -/
theorem C8_witness :
    triState3.opened_valves = triState2.opened_valves ∧
      triState3.closed_valves = triState2.closed_valves ∧
      triState3.accumulated_flow = triState2.accumulated_flow ∧
      triState3.time_left = triState2.time_left :=
  C8_children_frame triState2 triValves triDists triState3 (by decide)

/-! ## Claim C5 -/

/-- C5 (counterexample): the claim (following the spec) excludes only
valves claimed by ANOTHER agent, so on the self-loop valve the lone
idle agent should get exactly the candidate `Travel{to: 0, time_left:
distance[0][0] = 1}`; the code also filters the agent's own destination
and instead parks the agent (`Wait {0, 5}`). -/
theorem C5_counterexample :
    (PlayerState.Wait 0 0).get_next_states selfState loopValve
        (all_pairs_shortest loopValve) = [PlayerState.Wait 0 5] ∧
      specIdleNextStates selfState loopValve (all_pairs_shortest loopValve) 0 []
        = [PlayerState.Travel 0 1] ∧
      ([PlayerState.Wait 0 5] : List PlayerState) ≠ [PlayerState.Travel 0 1] := by
  decide

/-- C5 (amended): for an idle agent with countdown 0 the transition
returns exactly one `Travel {to: v, time_left: distance[at][v]}`
candidate for every closed positive-flow valve reachable within the
global `time_left` that is not claimed as ANY agent's current
destination (the agent's own location included); if no such candidate
exists, the agent stays idle waiting out the remaining time when
`time_left` is positive, and has no successor at all when `time_left`
is 0. -/
theorem C5_idle_transition (s : State) (valves : List NormalizedValve)
    (distances : List (List Nat)) (loc : Nat) (q : PlayerState) :
    q ∈ (PlayerState.Wait loc 0).get_next_states s valves distances ↔
      ((∃ vid ∈ s.closed_valves,
          0 < (getValve valves vid).flow_rate ∧
            (distances.getD loc []).getD (getValve valves vid).id 0 < s.time_left ∧
            (getValve valves vid).id ∉ otherPlayerDestinations s ∧
            q = PlayerState.Travel (getValve valves vid).id
              ((distances.getD loc []).getD (getValve valves vid).id 0)) ∨
        ((∀ vid ∈ s.closed_valves,
            ¬(0 < (getValve valves vid).flow_rate ∧
              (distances.getD loc []).getD (getValve valves vid).id 0 < s.time_left ∧
              (getValve valves vid).id ∉ otherPlayerDestinations s)) ∧
          s.time_left ≠ 0 ∧ q = PlayerState.Wait loc s.time_left)) := by
  rw [PlayerState.get_next_states]
  simp only [ne_eq, not_true_eq_false, if_false]
  constructor
  · intro hq
    split at hq
    case isTrue hEmpty =>
      right
      have hacc : accessibleClosedValves s valves (distances.getD loc []) = [] := by
        have := List.isEmpty_iff.mp hEmpty
        exact List.map_eq_nil_iff.mp this
      refine ⟨?_, ?_, ?_⟩
      · intro vid hvid ⟨hflow, hdist, hdest⟩
        have : getValve valves vid ∈
            accessibleClosedValves s valves (distances.getD loc []) :=
          mem_accessibleClosedValves.mpr ⟨vid, hvid, rfl, hdist, hflow, hdest⟩
        rw [hacc] at this
        cases this
      · intro h0
        rw [if_pos h0] at hq
        cases hq
      · by_cases h0 : s.time_left = 0
        · rw [if_pos h0] at hq
          cases hq
        · rw [if_neg h0] at hq
          exact List.mem_singleton.mp hq
    case isFalse hEmpty =>
      left
      simp only [List.mem_map] at hq
      obtain ⟨v, hv, rfl⟩ := hq
      obtain ⟨vid, hvid, rfl, hdist, hflow, hdest⟩ :=
        mem_accessibleClosedValves.mp hv
      exact ⟨vid, hvid, hflow, hdist, hdest, rfl⟩
  · intro hq
    rcases hq with ⟨vid, hvid, hflow, hdist, hdest, rfl⟩ | ⟨hno, h0, rfl⟩
    · have hv : getValve valves vid ∈
          accessibleClosedValves s valves (distances.getD loc []) :=
        mem_accessibleClosedValves.mpr ⟨vid, hvid, rfl, hdist, hflow, hdest⟩
      have hne : ¬((accessibleClosedValves s valves (distances.getD loc [])).map
          (fun v => PlayerState.Travel v.id
            ((distances.getD loc []).getD v.id 0))).isEmpty := by
        intro hEmpty
        have := List.map_eq_nil_iff.mp (List.isEmpty_iff.mp hEmpty)
        rw [this] at hv
        cases hv
      rw [if_neg hne]
      exact List.mem_map.mpr ⟨getValve valves vid, hv, rfl⟩
    · have hacc : accessibleClosedValves s valves (distances.getD loc []) = [] := by
        by_contra hne
        obtain ⟨v, hv⟩ := List.exists_mem_of_ne_nil _ hne
        obtain ⟨vid, hvid, rfl, hdist, hflow, hdest⟩ :=
          mem_accessibleClosedValves.mp hv
        exact hno vid hvid ⟨hflow, hdist, hdest⟩
      simp only [hacc, List.map_nil, List.isEmpty_nil, if_true, if_neg h0]
      exact List.mem_singleton.mpr rfl

/-- C5 (witness): the amended characterization instantiated on
`pairState`: the accessible valve 1 of `twoValves` yields the candidate
`Travel 1 1`. -/
theorem C5_witness :
    PlayerState.Travel 1 1 ∈ (PlayerState.Wait 0 0).get_next_states pairState
      twoValves (all_pairs_shortest twoValves) :=
  (C5_idle_transition pairState twoValves (all_pairs_shortest twoValves) 0
      (PlayerState.Travel 1 1)).mpr
    (Or.inl ⟨1, by decide, by decide, by decide, by decide, by decide⟩)

/-! ## Helper lemmas about the graph normalizer -/

theorem lookup_append_left {l1 l2 : List (String × Nat)} {n : String}
    (h : (l1.lookup n).isSome) : (l1 ++ l2).lookup n = l1.lookup n := by
  induction l1 with
  | nil => simp [List.lookup] at h
  | cons p rest ih =>
    obtain ⟨k, v⟩ := p
    rw [List.cons_append]
    by_cases hb : (n == k)
    · simp [List.lookup, hb]
    · simp only [List.lookup, hb] at h ⊢
      exact ih h

theorem lookup_append_right {l1 l2 : List (String × Nat)} {n : String}
    (h : l1.lookup n = none) : (l1 ++ l2).lookup n = l2.lookup n := by
  induction l1 with
  | nil => simp
  | cons p rest ih =>
    obtain ⟨k, v⟩ := p
    rw [List.cons_append]
    by_cases hb : (n == k)
    · simp [List.lookup, hb] at h
    · simp only [List.lookup, hb] at h ⊢
      exact ih h

theorem lookup_mem {l : List (String × Nat)} {n : String} {v : Nat}
    (h : l.lookup n = some v) : (n, v) ∈ l := by
  induction l with
  | nil => cases h
  | cons p rest ih =>
    obtain ⟨k, w⟩ := p
    by_cases hb : (n == k)
    · simp only [List.lookup, hb] at h
      have hk : n = k := by simpa using hb
      have hw : w = v := by simpa using h
      subst hk; subst hw
      exact List.mem_cons_self _ _
    · simp only [List.lookup, hb] at h
      exact List.mem_cons_of_mem _ (ih h)

theorem lookup_none_not_mem_keys {l : List (String × Nat)} {n : String}
    (h : l.lookup n = none) : n ∉ l.map Prod.fst := by
  induction l with
  | nil => simp
  | cons p rest ih =>
    obtain ⟨k, w⟩ := p
    by_cases hb : (n == k)
    · simp [List.lookup, hb] at h
    · simp only [List.lookup, hb] at h
      have hk : ¬(n = k) := by simpa using hb
      simp only [List.map_cons, List.mem_cons]
      rintro (h2 | h2)
      · exact hk h2
      · exact ih h h2

theorem mappingStep_preserves_isSome {mc : List (String × Nat) × Nat}
    {n : String} (name : String) (h : (mc.1.lookup n).isSome) :
    (((mappingStep mc name).1).lookup n).isSome := by
  rw [mappingStep]
  split
  · exact h
  · rw [lookup_append_left h]
    exact h

theorem mappingStep_present (mc : List (String × Nat) × Nat) (name : String) :
    (((mappingStep mc name).1).lookup name).isSome := by
  rw [mappingStep]
  split
  case isTrue h => exact h
  case isFalse h =>
    rw [lookup_append_right (Option.not_isSome_iff_eq_none.mp h)]
    simp [List.lookup]

theorem foldl_mappingStep_preserves_isSome (l : List String)
    (mc : List (String × Nat) × Nat) (n : String)
    (h : (mc.1.lookup n).isSome) :
    (((l.foldl mappingStep mc).1).lookup n).isSome := by
  induction l generalizing mc with
  | nil => exact h
  | cons a rest ih =>
    rw [List.foldl_cons]
    exact ih _ (mappingStep_preserves_isSome a h)

theorem foldl_mappingStep_present (l : List String)
    (mc : List (String × Nat) × Nat) :
    ∀ n ∈ l, (((l.foldl mappingStep mc).1).lookup n).isSome := by
  induction l generalizing mc with
  | nil => intro n hn; cases hn
  | cons a rest ih =>
    intro n hn
    rw [List.foldl_cons]
    rcases List.mem_cons.mp hn with h | h
    · subst h
      exact foldl_mappingStep_preserves_isSome rest _ n (mappingStep_present mc n)
    · exact ih _ n h

/-- Every name of the stream receives an id. -/
theorem buildMapping_present (valves : List Valve) :
    ∀ name ∈ allNames valves, (((buildMapping valves).1).lookup name).isSome := by
  rw [buildMapping]
  exact foldl_mappingStep_present (allNames valves) ([("AA", 0)], 1)

/-- The invariant of the id-assignment fold: the mapping has exactly
`count` entries, every assigned id is below `count`, the keys are
distinct, and every key is `"AA"` or a name of the stream. -/
theorem buildMapping_inv (valves : List Valve) :
    (buildMapping valves).1.length = (buildMapping valves).2 ∧
      (∀ pr ∈ (buildMapping valves).1, pr.2 < (buildMapping valves).2) ∧
      ((buildMapping valves).1.map Prod.fst).Nodup ∧
      (∀ pr ∈ (buildMapping valves).1, pr.1 = "AA" ∨ pr.1 ∈ allNames valves) := by
  rw [buildMapping]
  refine @List.foldlRecOn _ _
    (fun mc : List (String × Nat) × Nat =>
      mc.1.length = mc.2 ∧ (∀ pr ∈ mc.1, pr.2 < mc.2) ∧
        (mc.1.map Prod.fst).Nodup ∧
        (∀ pr ∈ mc.1, pr.1 = "AA" ∨ pr.1 ∈ allNames valves))
    _ _ _ ?_ ?_
  · refine ⟨rfl, ?_, by simp, ?_⟩
    · intro pr hpr
      rcases List.mem_singleton.mp hpr with rfl
      exact Nat.zero_lt_one
    · intro pr hpr
      rcases List.mem_singleton.mp hpr with rfl
      exact Or.inl rfl
  · intro mc hmc name hname
    rw [mappingStep]
    split
    case isTrue => exact hmc
    case isFalse hNone =>
      obtain ⟨hlen, hval, hnd, hkeys⟩ := hmc
      have hnone : mc.1.lookup name = none :=
        Option.not_isSome_iff_eq_none.mp hNone
      refine ⟨by simp [hlen], ?_, ?_, ?_⟩
      · intro pr hpr
        rcases List.mem_append.mp hpr with h | h
        · exact Nat.lt_succ_of_lt (hval pr h)
        · rcases List.mem_singleton.mp h with rfl
          exact Nat.lt_succ_self _
      · rw [List.map_append]
        refine List.Nodup.append hnd (by simp) ?_
        intro k hk hk2
        simp only [List.map_cons, List.map_nil, List.mem_singleton] at hk2
        subst hk2
        exact lookup_none_not_mem_keys hnone hk
      · intro pr hpr
        rcases List.mem_append.mp hpr with h | h
        · exact hkeys pr h
        · rcases List.mem_singleton.mp h with rfl
          exact Or.inr hname

theorem sortInsertById_length (v : NormalizedValve) (l : List NormalizedValve) :
    (sortInsertById v l).length = l.length + 1 := by
  induction l with
  | nil => rfl
  | cons w rest ih =>
    rw [sortInsertById]
    split
    · simp [ih]
    · simp

theorem sortById_length_aux (l acc : List NormalizedValve) :
    (l.foldl (fun acc v => sortInsertById v acc) acc).length =
      acc.length + l.length := by
  induction l generalizing acc with
  | nil => simp
  | cons v rest ih =>
    rw [List.foldl_cons, ih, sortInsertById_length]
    simp only [List.length_cons]
    omega

theorem sortById_length (l : List NormalizedValve) :
    (sortById l).length = l.length := by
  rw [sortById, sortById_length_aux]
  simp

theorem mem_sortInsertById {x v : NormalizedValve} {l : List NormalizedValve} :
    x ∈ sortInsertById v l ↔ x = v ∨ x ∈ l := by
  induction l with
  | nil => simp [sortInsertById]
  | cons w rest ih =>
    rw [sortInsertById]
    split
    · simp only [List.mem_cons, ih]
      tauto
    · simp [List.mem_cons]

theorem mem_sortById_aux {x : NormalizedValve} (l acc : List NormalizedValve) :
    x ∈ l.foldl (fun acc v => sortInsertById v acc) acc ↔ x ∈ acc ∨ x ∈ l := by
  induction l generalizing acc with
  | nil => simp
  | cons v rest ih =>
    rw [List.foldl_cons, ih]
    simp only [mem_sortInsertById, List.mem_cons]
    tauto

theorem mem_sortById {x : NormalizedValve} {l : List NormalizedValve} :
    x ∈ sortById l ↔ x ∈ l := by
  rw [sortById, mem_sortById_aux]
  simp

theorem normalize_valves_length (valves : List Valve) :
    (normalize_valves valves).length = valves.length := by
  rw [normalize_valves, sortById_length, List.length_map]

/-! ## Claim C4 -/

/-- C4 (counterexample): the claim asserts that names appearing only as
neighbors still receive a table entry with flow 0; in fact
`normalize_valves` assigns the dangling name `"ZZ"` an id (1) but emits
one entry per declared valve only, so the exit id 1 is out of range for
the length-1 output table. -/
theorem C4_counterexample :
    normalize_valves [⟨"AA", 5, ["ZZ"]⟩] = [⟨0, 5, [1]⟩] ∧
      ¬(1 < (normalize_valves [⟨"AA", 5, ["ZZ"]⟩]).length) := by decide

/-- C4 (amended): `normalize_valves` emits one entry per declared
valve; dangling neighbor names receive an id but no entry.  When every
name referenced in an exits list is also declared and `"AA"` is among
the declared names, every id appearing in any exits list of the output
is a valid index into the returned table. -/
theorem C4_exits_in_range (valves : List Valve)
    (hAA : "AA" ∈ valves.map Valve.id)
    (hclosed : ∀ v ∈ valves, ∀ e ∈ v.exits, e ∈ valves.map Valve.id) :
    ∀ nv ∈ normalize_valves valves, ∀ e ∈ nv.exits,
      e < (normalize_valves valves).length := by
  intro nv hnv e he
  rw [normalize_valves_length]
  rw [normalize_valves] at hnv
  have hnv2 := mem_sortById.mp hnv
  obtain ⟨v, hv, rfl⟩ := List.mem_map.mp hnv2
  simp only at he
  obtain ⟨ename, hename, rfl⟩ := List.mem_map.mp he
  have hstream : ename ∈ allNames valves := by
    rw [allNames]
    exact List.mem_append.mpr (Or.inr (List.mem_flatMap.mpr ⟨v, hv, hename⟩))
  have hsome := buildMapping_present valves ename hstream
  obtain ⟨val, hval⟩ := Option.isSome_iff_exists.mp hsome
  rw [hval, Option.getD_some]
  obtain ⟨hlen, hvals, hnd, hkeys⟩ := buildMapping_inv valves
  have hlt : val < (buildMapping valves).2 := hvals _ (lookup_mem hval)
  have hsub : ∀ k ∈ (buildMapping valves).1.map Prod.fst, k ∈ valves.map Valve.id := by
    intro k hk
    obtain ⟨pr, hpr, rfl⟩ := List.mem_map.mp hk
    rcases hkeys pr hpr with h | h
    · rw [h]; exact hAA
    · rw [allNames] at h
      rcases List.mem_append.mp h with h | h
      · exact h
      · obtain ⟨v2, hv2, hmem2⟩ := List.mem_flatMap.mp h
        exact hclosed v2 hv2 _ hmem2
  have hcard : (buildMapping valves).1.length ≤ valves.length := by
    have h1 : ((buildMapping valves).1.map Prod.fst).toFinset.card =
        (buildMapping valves).1.length := by
      rw [List.toFinset_card_of_nodup hnd, List.length_map]
    have h2 : ((buildMapping valves).1.map Prod.fst).toFinset ⊆
        (valves.map Valve.id).toFinset := by
      intro k hk
      rw [List.mem_toFinset] at hk ⊢
      exact hsub k hk
    have h3 := Finset.card_le_card h2
    have h4 := List.toFinset_card_le (valves.map Valve.id)
    rw [List.length_map] at h4
    omega
  omega

/-- C4 (witness): the amended statement evaluated on the repository's
own two-valve test input. -/
theorem C4_witness :
    (1 : Nat) < (normalize_valves [⟨"AA", 0, ["BB"]⟩, ⟨"BB", 13, ["AA"]⟩]).length :=
  C4_exits_in_range [⟨"AA", 0, ["BB"]⟩, ⟨"BB", 13, ["AA"]⟩] (by decide)
    (by decide) ⟨0, 0, [1]⟩ (by decide) 1 (by decide)

/-! ## Helper lemmas about the bitset model and the flow bound -/

theorem mem_bsInsert {x i : Nat} {l : List Nat} :
    x ∈ bsInsert i l ↔ x = i ∨ x ∈ l := by
  induction l with
  | nil => simp [bsInsert]
  | cons j rest ih =>
    rw [bsInsert]
    by_cases h1 : i < j
    · simp only [h1, if_true, List.mem_cons]
    · by_cases h2 : i = j
      · subst h2
        rw [if_neg h1, if_pos rfl]
        simp only [List.mem_cons]
        tauto
      · rw [if_neg h1, if_neg h2]
        simp only [List.mem_cons, ih]
        tauto

theorem bsInsert_sorted {i : Nat} {l : List Nat} (h : SortedLt l) :
    SortedLt (bsInsert i l) := by
  induction l with
  | nil => simp [bsInsert, SortedLt]
  | cons j rest ih =>
    rw [SortedLt, List.pairwise_cons] at h
    obtain ⟨hj, hrest⟩ := h
    rw [bsInsert]
    by_cases h1 : i < j
    · simp only [h1, if_true, SortedLt, List.pairwise_cons]
      refine ⟨?_, hj, hrest⟩
      intro x hx
      rcases List.mem_cons.mp hx with rfl | hx
      · exact h1
      · exact Nat.lt_trans h1 (hj x hx)
    · by_cases h2 : i = j
      · subst h2
        rw [if_neg h1, if_pos rfl]
        rw [SortedLt, List.pairwise_cons]
        exact ⟨hj, hrest⟩
      · rw [if_neg h1, if_neg h2]
        rw [SortedLt, List.pairwise_cons]
        refine ⟨?_, ih hrest⟩
        intro x hx
        rcases mem_bsInsert.mp hx with rfl | hx
        · omega
        · exact hj x hx

theorem SortedLt.nodup {l : List Nat} (h : SortedLt l) : l.Nodup :=
  List.Pairwise.imp Nat.ne_of_lt h

theorem sum_range_flow (valves : List NormalizedValve) :
    ∑ i ∈ Finset.range valves.length, (getValve valves i).flow_rate =
      sumFlow valves := by
  induction valves with
  | nil => simp [sumFlow]
  | cons v rest ih =>
    rw [List.length_cons, Finset.sum_range_succ']
    have hshift : ∀ i, (getValve (v :: rest) (i + 1)).flow_rate =
        (getValve rest i).flow_rate := by
      intro i; rfl
    simp only [hshift]
    rw [ih]
    have h0 : (getValve (v :: rest) 0).flow_rate = v.flow_rate := rfl
    rw [h0, sumFlow, sumFlow, List.map_cons, List.sum_cons]
    omega

theorem get_current_flow_le_sumFlow (valves : List NormalizedValve)
    {open_ : List Nat} (h : open_.Nodup) :
    get_current_flow open_ valves ≤ sumFlow valves := by
  rw [get_current_flow]
  have hsum : (open_.map (fun i => (getValve valves i).flow_rate)).sum =
      ∑ i ∈ open_.toFinset, (getValve valves i).flow_rate := by
    rw [List.sum_toFinset _ h]
  rw [hsum]
  have heq : ∑ i ∈ open_.toFinset, (getValve valves i).flow_rate =
      ∑ i ∈ open_.toFinset.filter (fun i => i < valves.length),
        (getValve valves i).flow_rate := by
    refine (Finset.sum_subset (Finset.filter_subset _ _) ?_).symm
    intro x hx hnx
    simp only [Finset.mem_filter, not_and] at hnx
    have hge : ¬x < valves.length := hnx hx
    rw [getValve, List.getD_eq_default _ _ (by omega)]
    rfl
  have hf : open_.toFinset.filter (fun i => i < valves.length) ⊆
      Finset.range valves.length := by
    intro x hx
    simp only [Finset.mem_filter] at hx
    exact Finset.mem_range.mpr hx.2
  rw [heq]
  calc ∑ i ∈ open_.toFinset.filter (fun i => i < valves.length),
        (getValve valves i).flow_rate
      ≤ ∑ i ∈ Finset.range valves.length, (getValve valves i).flow_rate :=
        Finset.sum_le_sum_of_subset hf
    _ = sumFlow valves := sum_range_flow valves

/-- Ticking cannot create flow out of thin air: the accumulated flow
plus the (full-rate) value of the remaining time never grows. -/
theorem tick_budget (s : State) (valves : List NormalizedValve)
    (h : SortedLt s.opened_valves) :
    (s.tick valves).accumulated_flow +
        sumFlow valves * (s.tick valves).time_left ≤
      s.accumulated_flow + sumFlow valves * s.time_left := by
  have hacc : (s.tick valves).accumulated_flow =
      s.accumulated_flow +
        get_current_flow s.opened_valves valves *
          min s.get_time_till_action s.time_left := rfl
  have htime : (s.tick valves).time_left =
      s.time_left - s.get_time_till_action := rfl
  rw [hacc, htime]
  have hcur : get_current_flow s.opened_valves valves ≤ sumFlow valves :=
    get_current_flow_le_sumFlow valves h.nodup
  have h1 : get_current_flow s.opened_valves valves *
        min s.get_time_till_action s.time_left ≤
      sumFlow valves * min s.get_time_till_action s.time_left :=
    Nat.mul_le_mul_right _ hcur
  have h2 : min s.get_time_till_action s.time_left +
      (s.time_left - s.get_time_till_action) ≤ s.time_left := by omega
  have h3 : sumFlow valves * min s.get_time_till_action s.time_left +
      sumFlow valves * (s.time_left - s.get_time_till_action) ≤
        sumFlow valves * s.time_left := by
    rw [← Nat.mul_add]
    exact Nat.mul_le_mul_left _ h2
  omega

/-- Ticking leaves the opened set untouched. -/
theorem tick_opened (s : State) (valves : List NormalizedValve) :
    (s.tick valves).opened_valves = s.opened_valves := rfl

/-- `apply_player_actions` keeps the accumulated flow and the clock and
only inserts into the opened set, preserving its sortedness. -/
theorem apply_player_actions_fields (s : State) :
    (s.apply_player_actions).accumulated_flow = s.accumulated_flow ∧
      (s.apply_player_actions).time_left = s.time_left ∧
      (SortedLt s.opened_valves → SortedLt (s.apply_player_actions).opened_valves) := by
  rw [State.apply_player_actions]
  refine @List.foldlRecOn _ _
    (fun st : State => st.accumulated_flow = s.accumulated_flow ∧
      st.time_left = s.time_left ∧
      (SortedLt s.opened_valves → SortedLt st.opened_valves))
    _ _ _ ⟨rfl, rfl, fun h => h⟩ ?_
  intro st hst p _
  obtain ⟨h1, h2, h3⟩ := hst
  match p with
  | .Wait l t => exact ⟨h1, h2, h3⟩
  | .Travel l t => exact ⟨h1, h2, h3⟩
  | .Open l t =>
    match t with
    | 0 => exact ⟨h1, h2, fun h => bsInsert_sorted (h3 h)⟩
    | t + 1 => exact ⟨h1, h2, h3⟩

/-- `popMax` returns an element of the queue and a remainder drawn from
the queue. -/
theorem popMax_mem :
    ∀ {q : List State} {s : State} {rest : List State},
      popMax q = some (s, rest) → s ∈ q ∧ ∀ x ∈ rest, x ∈ q := by
  intro q
  induction q with
  | nil => intro s rest h; cases h
  | cons a q2 ih =>
    intro s rest h
    rw [popMax] at h
    rcases hpop : popMax q2 with _ | ⟨m, r⟩ <;> rw [hpop] at h <;> dsimp only at h
    · simp only [Option.some.injEq, Prod.mk.injEq] at h
      obtain ⟨rfl, rfl⟩ := h
      exact ⟨List.mem_cons_self _ _, fun x hx => absurd hx (List.not_mem_nil x)⟩
    · obtain ⟨hm, hr⟩ := ih hpop
      split at h
      · simp only [Option.some.injEq, Prod.mk.injEq] at h
        obtain ⟨rfl, rfl⟩ := h
        refine ⟨List.mem_cons_of_mem _ hm, ?_⟩
        intro x hx
        rcases List.mem_cons.mp hx with rfl | hx2
        · exact List.mem_cons_self _ _
        · exact List.mem_cons_of_mem _ (hr x hx2)
      · simp only [Option.some.injEq, Prod.mk.injEq] at h
        obtain ⟨rfl, rfl⟩ := h
        exact ⟨List.mem_cons_self _ _, fun x hx => List.mem_cons_of_mem _ hx⟩

/-- Children of a popped state respect the queue invariant. -/
theorem searchChildren_inv {valves : List NormalizedValve}
    {distances : List (List Nat)} {T0 : Nat} {s : State}
    (hs : SortedLt s.opened_valves)
    (hb : s.accumulated_flow + sumFlow valves * s.time_left ≤ sumFlow valves * T0) :
    ∀ c ∈ searchChildren valves distances s, SortedLt c.opened_valves ∧
      c.accumulated_flow + sumFlow valves * c.time_left ≤ sumFlow valves * T0 := by
  intro c hc
  rw [searchChildren] at hc
  obtain ⟨ho, _, ha, ht⟩ :=
    get_next_states_fields ((s.tick valves).apply_player_actions) valves distances c hc
  obtain ⟨ha2, ht2, hs2⟩ := apply_player_actions_fields (s.tick valves)
  have htickb := tick_budget s valves hs
  have hsorted2 : SortedLt (s.tick valves).opened_valves := by
    rw [tick_opened]; exact hs
  refine ⟨?_, ?_⟩
  · rw [ho]; exact hs2 hsorted2
  · rw [ha, ht, ha2, ht2]
    omega

/-- The search loop's result never exceeds the flow budget. -/
theorem searchRun_le (valves : List NormalizedValve)
    (distances : List (List Nat)) (T0 : Nat) :
    ∀ (fuel : Nat) (q : List State) (best : Nat),
      QueueInv valves T0 q → best ≤ sumFlow valves * T0 →
      ∀ v, searchRun valves distances fuel q best = some v →
        v ≤ sumFlow valves * T0 := by
  intro fuel
  induction fuel with
  | zero =>
    intro q best hq hbest v hrun
    rw [searchRun] at hrun
    rcases hpop : popMax q with _ | ⟨s, rest⟩
    · rw [hpop] at hrun
      simp only [Option.some.injEq] at hrun
      omega
    · rw [hpop] at hrun
      cases hrun
  | succ f ih =>
    intro q best hq hbest v hrun
    rw [searchRun] at hrun
    rcases hpop : popMax q with _ | ⟨s, rest⟩
    · rw [hpop] at hrun
      simp only [Option.some.injEq] at hrun
      omega
    · rw [hpop] at hrun
      simp only [] at hrun
      obtain ⟨hs, hrest⟩ := popMax_mem hpop
      obtain ⟨hsorted, hbudget⟩ := hq s hs
      have htickb := tick_budget s valves hsorted
      have hbest2 : max best ((s.tick valves).accumulated_flow) ≤
          sumFlow valves * T0 := by
        have : (s.tick valves).accumulated_flow ≤ sumFlow valves * T0 := by omega
        omega
      refine ih _ _ ?_ hbest2 v hrun
      intro c hc
      rcases List.mem_append.mp hc with h | h
      · exact hq c (hrest c h)
      · have h2 := List.mem_filter.mp h
        exact searchChildren_inv hsorted hbudget c h2.1

/-! ## Claim C1 -/

/-- C1 (counterexample): the claim asserts `find_optimal_total_flow`
returns the maximum achievable total flow; with one agent on the
self-loop valve (flow 5) and budget 3 the search returns 0, yet under
the puzzle's own semantics the schedule "open, then wait" collects 10
(the agent never schedules the valve it stands on, so the flow is
unreachable for the search). -/
theorem C1_counterexample :
    find_optimal_total_flow [0] loopValve 3 100 = some 0 ∧
      specScheduleFlow loopValve 3 0 []
        [SpecAction.OpenValve, SpecAction.Stay, SpecAction.Stay] = 10 ∧
      (0 : Nat) < 10 := by decide

/-- C1 (amended): whenever the driver's loop terminates it returns a
definite value that is never negative (the model is `Nat`, mirroring
`u32`) and never exceeds the trivial upper bound
`sum(flow_rate) × time_budget`; it does not always return the maximum
achievable flow (see the counterexample). -/
theorem C1_result_bounded (starting_ats : List Nat)
    (valves : List NormalizedValve) (time_left fuel v : Nat)
    (h : find_optimal_total_flow starting_ats valves time_left fuel = some v) :
    v ≤ sumFlow valves * time_left := by
  refine searchRun_le valves (all_pairs_shortest valves) time_left fuel
    [searchInit starting_ats valves time_left] 0 ?_ (Nat.zero_le _) v h
  intro s hs
  rcases List.mem_singleton.mp hs with rfl
  constructor
  · exact List.Pairwise.nil
  · simp [searchInit]

/-- C1 (witness): the bound evaluated on the one-valve table. -/
theorem C1_witness : (0 : Nat) ≤ sumFlow soloValve * 3 :=
  C1_result_bounded [0] soloValve 3 100 0 (by decide)

/-! ## Helper lemmas for termination (claim C6) -/

theorem tick_players (s : State) (valves : List NormalizedValve) :
    (s.tick valves).player_states =
      s.player_states.map (PlayerState.tick s.get_time_till_action) := rfl

theorem tick_time (s : State) (valves : List NormalizedValve) :
    (s.tick valves).time_left = s.time_left - s.get_time_till_action := rfl

theorem tick_closed (s : State) (valves : List NormalizedValve) :
    (s.tick valves).closed_valves = s.closed_valves := rfl

theorem apply_players_closed (s : State) :
    (s.apply_player_actions).player_states = s.player_states ∧
      (s.apply_player_actions).time_left = s.time_left ∧
      (s.apply_player_actions).closed_valves.length ≤ s.closed_valves.length := by
  rw [State.apply_player_actions]
  refine @List.foldlRecOn _ _
    (fun st : State => st.player_states = s.player_states ∧
      st.time_left = s.time_left ∧
      st.closed_valves.length ≤ s.closed_valves.length) _ _ _
    ⟨rfl, rfl, Nat.le_refl _⟩ ?_
  intro st hst p _
  obtain ⟨h1, h2, h3⟩ := hst
  match p with
  | .Wait l t => exact ⟨h1, h2, h3⟩
  | .Travel l t => exact ⟨h1, h2, h3⟩
  | .Open l t =>
    match t with
    | 0 =>
      refine ⟨h1, h2, ?_⟩
      calc (bsRemove l st.closed_valves).length
          ≤ st.closed_valves.length := List.length_filter_le _ _
        _ ≤ s.closed_valves.length := h3
    | t + 1 => exact ⟨h1, h2, h3⟩

theorem crossFold_mem (st : State) (valves : List NormalizedValve)
    (distances : List (List Nat)) :
    ∀ (ps : List PlayerState) (states : List State) (c : State),
      c ∈ ps.foldl
          (fun states p =>
            (p.get_next_states st valves distances).flatMap
              (fun nextP =>
                states.map (fun x =>
                  { x with player_states := x.player_states ++ [nextP] })))
          states →
      ∃ x ∈ states, ∃ os,
        c.player_states = x.player_states ++ os ∧
          List.Forall₂ (fun p o => o ∈ p.get_next_states st valves distances) ps os ∧
          c.opened_valves = x.opened_valves ∧ c.closed_valves = x.closed_valves ∧
          c.accumulated_flow = x.accumulated_flow ∧ c.time_left = x.time_left ∧
          c.estimated_total_flow = x.estimated_total_flow
  | [], states, c, hc =>
    ⟨c, hc, [], by simp, List.Forall₂.nil, rfl, rfl, rfl, rfl, rfl⟩
  | p :: rest, states, c, hc => by
    obtain ⟨x1, hx1, os1, hps, hf, ho, hcl, ha, ht, he⟩ :=
      crossFold_mem st valves distances rest _ c hc
    simp only [List.mem_flatMap, List.mem_map] at hx1
    obtain ⟨o, hoMem, x0, hx0, rfl⟩ := hx1
    refine ⟨x0, hx0, o :: os1, ?_, List.Forall₂.cons hoMem hf, ho, hcl, ha, ht, he⟩
    rw [hps]
    simp

theorem get_next_states_selection (st : State) (valves : List NormalizedValve)
    (distances : List (List Nat)) :
    ∀ c ∈ st.get_next_states valves distances,
      List.Forall₂ (fun p o => o ∈ p.get_next_states st valves distances)
        st.player_states c.player_states := by
  intro c hc
  rw [State.get_next_states] at hc
  simp only [List.mem_map] at hc
  obtain ⟨c0, hc0, rfl⟩ := hc
  obtain ⟨x, hx, os, hps, hf, _⟩ := crossFold_mem st valves distances _ _ _ hc0
  rcases List.mem_singleton.mp hx with rfl
  have hos : c0.player_states = os := by simpa using hps
  rw [State.update_estimated_total_flow]
  simpa [hos] using hf

theorem option_props {s2 : State} {valves : List NormalizedValve}
    {distances : List (List Nat)} {p o : PlayerState}
    (hpInv : playerInvEntry s2.time_left p)
    (ho : o ∈ p.get_next_states s2 valves distances) :
    playerInvEntry s2.time_left o ∧
      xi s2.time_left o ≤ xi s2.time_left p ∧
      (p.get_time_till_action = 0 →
        xi s2.time_left o < xi s2.time_left p) := by
  match p with
  | .Wait l (tl + 1) =>
    rw [PlayerState.get_next_states, if_pos (by omega : (tl + 1 : Nat) ≠ 0)] at ho
    rcases List.mem_singleton.mp ho with rfl
    refine ⟨hpInv, Nat.le_refl _, ?_⟩
    intro h
    exact absurd h (by simp [PlayerState.get_time_till_action])
  | .Wait l 0 =>
    rw [PlayerState.get_next_states] at ho
    simp only [ne_eq, not_true_eq_false, if_false] at ho
    split at ho
    case isTrue hEmpty =>
      split at ho
      case isTrue hT0 => cases ho
      case isFalse hT0 =>
        rcases List.mem_singleton.mp ho with rfl
        obtain ⟨T2, hT⟩ : ∃ k, s2.time_left = k + 1 :=
          ⟨s2.time_left - 1, by omega⟩
        rw [hT]
        refine ⟨?_, ?_, ?_⟩
        · rw [playerInvEntry, ← hT]
        · rw [xi, xi]
          simp only [Nat.succ_ne_zero, if_false]
          omega
        · intro _
          rw [xi, xi]
          simp only [Nat.succ_ne_zero, if_false]
          omega
    case isFalse hEmpty =>
      simp only [List.mem_map] at ho
      obtain ⟨v, hv, rfl⟩ := ho
      obtain ⟨vid, hvid, hveq, hdist, hflow, hdest⟩ :=
        mem_accessibleClosedValves.mp hv
      obtain ⟨T2, hT⟩ : ∃ k, s2.time_left = k + 1 :=
        ⟨s2.time_left - 1, by omega⟩
      rw [hT] at hdist ⊢
      refine ⟨?_, ?_, ?_⟩
      · rw [playerInvEntry]; omega
      · rw [xi, xi]
        simp only [Nat.succ_ne_zero, if_false]
        omega
      · intro _
        rw [xi, xi]
        simp only [Nat.succ_ne_zero, if_false]
        omega
  | .Travel l 0 =>
    rw [PlayerState.get_next_states, if_pos rfl] at ho
    rcases List.mem_singleton.mp ho with rfl
    refine ⟨?_, ?_, ?_⟩
    · rw [TIME_TO_OPEN_VALVE, playerInvEntry]
    · rw [TIME_TO_OPEN_VALVE, xi, xi]
      omega
    · intro _
      rw [TIME_TO_OPEN_VALVE, xi, xi]
      omega
  | .Travel l (tl + 1) =>
    rw [PlayerState.get_next_states, if_neg (by omega : ¬(tl + 1 = 0))] at ho
    rcases List.mem_singleton.mp ho with rfl
    refine ⟨hpInv, Nat.le_refl _, ?_⟩
    intro h
    exact absurd h (by simp [PlayerState.get_time_till_action])
  | .Open l 0 =>
    rw [PlayerState.get_next_states, if_pos rfl] at ho
    rcases List.mem_singleton.mp ho with rfl
    refine ⟨?_, ?_, ?_⟩
    · rw [playerInvEntry]; omega
    · rw [xi, xi]
      split <;> omega
    · intro _
      rw [xi, xi]
      split <;> omega
  | .Open l (tl + 1) =>
    rw [PlayerState.get_next_states, if_neg (by omega : ¬(tl + 1 = 0))] at ho
    rcases List.mem_singleton.mp ho with rfl
    refine ⟨hpInv, Nat.le_refl _, ?_⟩
    intro h
    exact absurd h (by simp [PlayerState.get_time_till_action])

theorem nat_min?_spec {l : List Nat} {m : Nat} (h : l.min? = some m) :
    m ∈ l ∧ ∀ b ∈ l, m ≤ b := by
  refine (List.min?_eq_some_iff ?_ ?_ ?_).mp h
  · exact fun a => Nat.le_refl a
  · exact fun a b => min_choice a b
  · exact fun a b c => Nat.le_min

theorem ttla_tick (k : Nat) (p : PlayerState) :
    (p.tick k).get_time_till_action = p.get_time_till_action - k := by
  cases p <;> rfl

theorem get_time_till_action_le (s : State) {p : PlayerState}
    (hp : p ∈ s.player_states) :
    s.get_time_till_action ≤ p.get_time_till_action := by
  rw [State.get_time_till_action]
  have hmem : p.get_time_till_action ∈
      s.player_states.map PlayerState.get_time_till_action :=
    List.mem_map_of_mem _ hp
  rcases hmin : (s.player_states.map PlayerState.get_time_till_action).min? with _ | m
  · rw [List.min?_eq_none_iff] at hmin
    rw [hmin] at hmem
    cases hmem
  · simp only [Option.getD_some]
    exact (nat_min?_spec hmin).2 _ hmem

theorem exists_ttla_attained (s : State) (hne : s.player_states ≠ []) :
    ∃ p ∈ s.player_states, p.get_time_till_action = s.get_time_till_action := by
  rw [State.get_time_till_action]
  rcases hmin : (s.player_states.map PlayerState.get_time_till_action).min? with _ | m
  · rw [List.min?_eq_none_iff, List.map_eq_nil_iff] at hmin
    exact absurd hmin hne
  · obtain ⟨hmem, _⟩ := nat_min?_spec hmin
    obtain ⟨p, hp, hpe⟩ := List.mem_map.mp hmem
    exact ⟨p, hp, by rw [hpe, Option.getD_some]⟩

theorem playersInv_tick (T k : Nat) (ps : List PlayerState)
    (h : PlayersInv T ps) :
    PlayersInv (T - k) (ps.map (PlayerState.tick k)) := by
  intro q hq
  simp only [List.mem_map] at hq
  obtain ⟨p, hp, rfl⟩ := hq
  have hinv := h p hp
  match p with
  | .Wait l tl =>
    rw [playerInvEntry] at hinv
    rw [PlayerState.tick, playerInvEntry]
    omega
  | .Travel l tl =>
    rw [playerInvEntry] at hinv
    rw [PlayerState.tick, playerInvEntry]
    omega
  | .Open l tl =>
    rw [playerInvEntry] at hinv
    rw [PlayerState.tick, playerInvEntry]
    omega

theorem sigma_le_bound (T : Nat) (ps : List PlayerState)
    (h : PlayersInv T ps) : sigma T ps ≤ ps.length * (3 * T + 9) := by
  induction ps with
  | nil => simp [sigma]
  | cons p rest ih =>
    have hrest : PlayersInv T rest := fun q hq => h q (List.mem_cons_of_mem _ hq)
    have hp := h p (List.mem_cons_self _ _)
    have hxi : xi T p ≤ 3 * T + 9 := by
      match p with
      | .Wait l 0 => rw [xi]; split <;> omega
      | .Wait l (tl + 1) =>
        rw [playerInvEntry] at hp
        rw [xi]
        omega
      | .Travel l tl =>
        rw [playerInvEntry] at hp
        rw [xi]
        omega
      | .Open l 0 => rw [xi]
      | .Open l (tl + 1) =>
        rw [playerInvEntry] at hp
        rw [xi]
        omega
    have htail := ih hrest
    rw [sigma, List.map_cons, List.sum_cons, List.length_cons]
    rw [sigma] at htail
    have hmul : (rest.length + 1) * (3 * T + 9) =
        rest.length * (3 * T + 9) + (3 * T + 9) := by ring
    omega

theorem forall2_right_mem {α β : Type} {R : α → β → Prop}
    {ps : List α} {os : List β} (h : List.Forall₂ R ps os) :
    ∀ o ∈ os, ∃ p ∈ ps, R p o := by
  induction h with
  | nil => intro o ho; cases ho
  | cons hrel _ ih =>
    intro o ho
    rcases List.mem_cons.mp ho with rfl | ho2
    · exact ⟨_, List.mem_cons_self _ _, hrel⟩
    · obtain ⟨p, hp, hr⟩ := ih o ho2
      exact ⟨p, List.mem_cons_of_mem _ hp, hr⟩

theorem forall2_sigma_le {s2 : State} {valves : List NormalizedValve}
    {distances : List (List Nat)} {ps os : List PlayerState}
    (hf : List.Forall₂ (fun p o => o ∈ p.get_next_states s2 valves distances) ps os)
    (hInv : PlayersInv s2.time_left ps) :
    PlayersInv s2.time_left os ∧
      sigma s2.time_left os ≤ sigma s2.time_left ps := by
  induction hf with
  | nil => exact ⟨fun o ho => absurd ho (List.not_mem_nil o), Nat.le_refl _⟩
  | @cons p o ps2 os2 hrel hf2 ih =>
    have hInvP := hInv p (List.mem_cons_self _ _)
    have hInvRest : PlayersInv s2.time_left ps2 :=
      fun q hq => hInv q (List.mem_cons_of_mem _ hq)
    obtain ⟨ho1, ho2, _⟩ := option_props hInvP hrel
    obtain ⟨ihInv, ihLe⟩ := ih hInvRest
    constructor
    · intro q hq
      rcases List.mem_cons.mp hq with rfl | hq2
      · exact ho1
      · exact ihInv q hq2
    · rw [sigma, sigma, List.map_cons, List.map_cons, List.sum_cons, List.sum_cons]
      rw [sigma, sigma] at ihLe
      omega

theorem forall2_sigma_lt {s2 : State} {valves : List NormalizedValve}
    {distances : List (List Nat)} {ps os : List PlayerState}
    (hf : List.Forall₂ (fun p o => o ∈ p.get_next_states s2 valves distances) ps os)
    (hInv : PlayersInv s2.time_left ps)
    (hzero : ∃ p ∈ ps, p.get_time_till_action = 0) :
    PlayersInv s2.time_left os ∧
      sigma s2.time_left os < sigma s2.time_left ps := by
  induction hf with
  | nil =>
    obtain ⟨p, hp, _⟩ := hzero
    cases hp
  | @cons p o ps2 os2 hrel hf2 ih =>
    have hInvP := hInv p (List.mem_cons_self _ _)
    have hInvRest : PlayersInv s2.time_left ps2 :=
      fun q hq => hInv q (List.mem_cons_of_mem _ hq)
    obtain ⟨ho1, ho2, ho3⟩ := option_props hInvP hrel
    obtain ⟨ihInvLe, ihLe⟩ := forall2_sigma_le hf2 hInvRest
    have hInvAll : PlayersInv s2.time_left (o :: os2) := by
      intro q hq
      rcases List.mem_cons.mp hq with rfl | hq2
      · exact ho1
      · exact ihInvLe q hq2
    rcases hzero with ⟨pz, hpz, hpz0⟩
    rcases List.mem_cons.mp hpz with rfl | hpz2
    · have hstrict := ho3 hpz0
      refine ⟨hInvAll, ?_⟩
      rw [sigma, sigma, List.map_cons, List.map_cons, List.sum_cons, List.sum_cons]
      rw [sigma, sigma] at ihLe
      omega
    · obtain ⟨_, ihLt⟩ := ih hInvRest ⟨pz, hpz2, hpz0⟩
      refine ⟨hInvAll, ?_⟩
      rw [sigma, sigma, List.map_cons, List.map_cons, List.sum_cons, List.sum_cons]
      rw [sigma, sigma] at ihLt
      omega

/-- Every child the loop body produces satisfies the queue invariant and
strictly decreases the loop measure. -/
theorem searchChildren_props {valves : List NormalizedValve}
    {distances : List (List Nat)} {p0 n : Nat} {s : State}
    (h0 : 0 < p0) (hInv : StateInv p0 n s) :
    ∀ c ∈ searchChildren valves distances s,
      StateInv p0 n c ∧ measureState p0 c < measureState p0 s := by
  intro c hc
  rw [searchChildren] at hc
  set s2 := (s.tick valves).apply_player_actions with hs2def
  obtain ⟨hlen, hpi, hclosed⟩ := hInv
  obtain ⟨hap, hat, hacl⟩ := apply_players_closed (s.tick valves)
  rw [← hs2def] at hap hat hacl
  have hs2p : s2.player_states =
      s.player_states.map (PlayerState.tick s.get_time_till_action) := by
    rw [hap, tick_players]
  have hs2t : s2.time_left = s.time_left - s.get_time_till_action := by
    rw [hat, tick_time]
  have hsel := get_next_states_selection s2 valves distances c hc
  obtain ⟨hco, hccl, hca, hct⟩ := get_next_states_fields s2 valves distances c hc
  rw [hs2p] at hsel
  have hpi2 : PlayersInv s2.time_left
      (s.player_states.map (PlayerState.tick s.get_time_till_action)) := by
    rw [hs2t]
    exact playersInv_tick _ _ _ hpi
  have hne : s.player_states ≠ [] := by
    intro h
    rw [h] at hlen
    simp only [List.length_nil] at hlen
    omega
  obtain ⟨pm, hpm, hpmz⟩ := exists_ttla_attained s hne
  have hzero : ∃ p ∈ s.player_states.map (PlayerState.tick s.get_time_till_action),
      p.get_time_till_action = 0 := by
    refine ⟨pm.tick s.get_time_till_action, List.mem_map_of_mem _ hpm, ?_⟩
    rw [ttla_tick, hpmz]
    omega
  obtain ⟨hcInvPlayers, hsigLt⟩ := forall2_sigma_lt hsel hpi2 hzero
  have hclen : c.player_states.length = p0 := by
    have hl2 := List.Forall₂.length_eq hsel
    rw [List.length_map] at hl2
    omega
  have hcclosed : c.closed_valves.length ≤ n := by
    rw [hccl]
    have h2 := hacl
    rw [tick_closed] at h2
    omega
  have hcInv : StateInv p0 n c :=
    ⟨hclen, by rw [hct]; exact hcInvPlayers, hcclosed⟩
  refine ⟨hcInv, ?_⟩
  rw [measureState, measureState, hct]
  by_cases hk0 : s.get_time_till_action = 0
  · have hteq : s2.time_left = s.time_left := by rw [hs2t, hk0]; omega
    have hpeq : s.player_states.map (PlayerState.tick s.get_time_till_action) =
        s.player_states := by
      rw [hk0]
      have hid : ∀ p : PlayerState, PlayerState.tick 0 p = p := by
        intro p
        cases p <;> simp [PlayerState.tick]
      calc s.player_states.map (PlayerState.tick 0)
          = s.player_states.map id := List.map_congr_left (fun p _ => hid p)
        _ = s.player_states := List.map_id _
    rw [hpeq] at hsigLt
    rw [hteq] at hsigLt ⊢
    omega
  · by_cases hT0 : s.time_left = 0
    · have hall : ∀ p ∈ s.player_states, ∃ l, p = PlayerState.Open l 1 := by
        intro p hp
        have hinv := hpi p hp
        have hge := get_time_till_action_le s hp
        match p with
        | .Wait l tl =>
          rw [playerInvEntry, hT0] at hinv
          simp only [PlayerState.get_time_till_action] at hge
          omega
        | .Travel l tl =>
          rw [playerInvEntry, hT0] at hinv
          simp only [PlayerState.get_time_till_action] at hge
          omega
        | .Open l tl =>
          rw [playerInvEntry] at hinv
          simp only [PlayerState.get_time_till_action] at hge
          have htl : tl = 1 := by omega
          exact ⟨l, by rw [htl]⟩
      have hs2t0 : s2.time_left = 0 := by
        rw [hs2t, hT0]
        omega
      have hczero : ∀ o ∈ c.player_states, xi s2.time_left o = 0 := by
        intro o ho
        obtain ⟨p2, hp2, hrel⟩ := forall2_right_mem hsel o ho
        obtain ⟨p, hp, rfl⟩ := List.mem_map.mp hp2
        obtain ⟨l, rfl⟩ := hall p hp
        have hk1 : 1 - s.get_time_till_action = 0 := by omega
        rw [PlayerState.tick, hk1] at hrel
        rw [PlayerState.get_next_states, if_pos rfl] at hrel
        rcases List.mem_singleton.mp hrel with rfl
        rw [hs2t0, xi]
        simp
      have hsum0 : sigma s2.time_left c.player_states = 0 := by
        rw [sigma]
        apply List.sum_eq_zero
        intro x hx
        obtain ⟨o, ho, rfl⟩ := List.mem_map.mp hx
        exact hczero o ho
      obtain ⟨ph, hph⟩ := List.exists_mem_of_ne_nil _ hne
      obtain ⟨l, hpl⟩ := hall ph hph
      have hpos : 0 < sigma s.time_left s.player_states := by
        rw [sigma]
        have hxi4 : xi s.time_left (PlayerState.Open l 1) = 4 := rfl
        have hmemx : xi s.time_left (PlayerState.Open l 1) ∈
            s.player_states.map (xi s.time_left) := by
          rw [← hpl] at hxi4 ⊢
          exact List.mem_map_of_mem _ hph
        have hle := List.single_le_sum (fun x _ => Nat.zero_le x) _ hmemx
        rw [hxi4] at hle
        omega
      rw [hsum0, hs2t0, hT0]
      rw [hT0] at hpos
      omega
    · have hbound := sigma_le_bound s2.time_left c.player_states hcInvPlayers
      rw [hclen] at hbound
      have hexp : p0 * (3 * s2.time_left + 9) =
          3 * p0 * s2.time_left + 9 * p0 := by ring
      rw [hexp] at hbound
      have hsucc : preSpent p0 (s2.time_left + 1) =
          preSpent p0 s2.time_left + (3 * p0 * s2.time_left + 9 * p0 + 1) := by
        rw [preSpent, preSpent, Finset.sum_range_succ]
      have hmono : preSpent p0 (s2.time_left + 1) ≤ preSpent p0 s.time_left := by
        rw [preSpent, preSpent]
        apply Finset.sum_le_sum_of_subset
        intro x hx
        rw [Finset.mem_range] at hx ⊢
        have hlt : s2.time_left < s.time_left := by
          rw [hs2t]
          omega
        omega
      calc preSpent p0 s2.time_left + sigma s2.time_left c.player_states
          ≤ preSpent p0 s2.time_left +
              (3 * p0 * s2.time_left + 9 * p0) := Nat.add_le_add_left hbound _
        _ < preSpent p0 s2.time_left +
              (3 * p0 * s2.time_left + 9 * p0 + 1) :=
            Nat.add_lt_add_left (Nat.lt_succ_self _) _
        _ = preSpent p0 (s2.time_left + 1) := hsucc.symm
        _ ≤ preSpent p0 s.time_left := hmono
        _ ≤ preSpent p0 s.time_left + sigma s.time_left s.player_states :=
            Nat.le_add_right _ _

theorem list_sum_map_const {α : Type} (l : List α) (k : Nat) :
    (l.map (fun _ => k)).sum = l.length * k := by
  induction l with
  | nil => simp
  | cons a rest ih =>
    simp only [List.map_cons, List.sum_cons, List.length_cons, ih]
    ring

theorem options_length_le {s2 : State} {valves : List NormalizedValve}
    {distances : List (List Nat)} {n : Nat}
    (hcl : s2.closed_valves.length ≤ n) (p : PlayerState) :
    (p.get_next_states s2 valves distances).length ≤ max n 1 := by
  match p with
  | .Wait l 0 =>
    rw [PlayerState.get_next_states]
    simp only [ne_eq, not_true_eq_false, if_false]
    split
    · split
      · simp
      · simp
    · rw [List.length_map]
      have h2 : (accessibleClosedValves s2 valves (distances.getD l [])).length ≤
          s2.closed_valves.length := by
        rw [accessibleClosedValves]
        refine le_trans (List.length_filter_le _ _) ?_
        refine le_trans (List.length_filter_le _ _) ?_
        rw [List.length_map]
      exact le_trans h2 (le_trans hcl (Nat.le_max_left n 1))
  | .Wait l (tl + 1) =>
    rw [PlayerState.get_next_states, if_pos (by omega : (tl + 1 : Nat) ≠ 0)]
    simp
  | .Travel l 0 =>
    rw [PlayerState.get_next_states, if_pos rfl]
    simp
  | .Travel l (tl + 1) =>
    rw [PlayerState.get_next_states, if_neg (by omega : ¬(tl + 1 = 0))]
    simp
  | .Open l 0 =>
    rw [PlayerState.get_next_states, if_pos rfl]
    simp
  | .Open l (tl + 1) =>
    rw [PlayerState.get_next_states, if_neg (by omega : ¬(tl + 1 = 0))]
    simp

theorem crossFold_length (st : State) (valves : List NormalizedValve)
    (distances : List (List Nat)) (m : Nat)
    (hopt : ∀ p : PlayerState, (p.get_next_states st valves distances).length ≤ m) :
    ∀ (ps : List PlayerState) (states : List State),
      (ps.foldl
          (fun states p =>
            (p.get_next_states st valves distances).flatMap
              (fun nextP =>
                states.map (fun x =>
                  { x with player_states := x.player_states ++ [nextP] })))
          states).length ≤ states.length * m ^ ps.length
  | [], states => by simp
  | p :: rest, states => by
    have hstep :
        ((p.get_next_states st valves distances).flatMap
          (fun nextP =>
            states.map (fun x =>
              { x with player_states := x.player_states ++ [nextP] }))).length ≤
          m * states.length := by
      simp only [List.length_flatMap, Function.comp_def, List.length_map]
      rw [list_sum_map_const]
      exact Nat.mul_le_mul_right _ (hopt p)
    have hrec := crossFold_length st valves distances m hopt rest
      ((p.get_next_states st valves distances).flatMap
        (fun nextP =>
          states.map (fun x =>
            { x with player_states := x.player_states ++ [nextP] })))
    have hmul := Nat.mul_le_mul_right (m ^ rest.length) hstep
    rw [List.foldl_cons]
    refine le_trans hrec (le_trans hmul ?_)
    exact le_of_eq (by rw [List.length_cons]; ring)

theorem get_next_states_count (st : State) (valves : List NormalizedValve)
    (distances : List (List Nat)) (m : Nat)
    (hopt : ∀ p : PlayerState, (p.get_next_states st valves distances).length ≤ m) :
    (st.get_next_states valves distances).length ≤ m ^ st.player_states.length := by
  rw [State.get_next_states, List.length_map]
  have h := crossFold_length st valves distances m hopt st.player_states
    [{ st with player_states := [] }]
  simpa using h

theorem searchChildren_count {valves : List NormalizedValve}
    {distances : List (List Nat)} {p0 n : Nat} {s : State}
    (hInv : StateInv p0 n s) :
    (searchChildren valves distances s).length ≤ (max n 1) ^ p0 := by
  rw [searchChildren]
  obtain ⟨hlen, _, hclosed⟩ := hInv
  obtain ⟨hap, hat, hacl⟩ := apply_players_closed (s.tick valves)
  have hcl2 : ((s.tick valves).apply_player_actions).closed_valves.length ≤ n := by
    have h2 := hacl
    rw [tick_closed] at h2
    omega
  have hlen2 : ((s.tick valves).apply_player_actions).player_states.length = p0 := by
    rw [hap, tick_players, List.length_map]
    exact hlen
  have h := get_next_states_count ((s.tick valves).apply_player_actions) valves
    distances (max n 1) (options_length_le hcl2)
  rw [hlen2] at h
  exact h

theorem popMax_none {q : List State} (h : popMax q = none) : q = [] := by
  cases q with
  | nil => rfl
  | cons a q2 =>
    rw [popMax] at h
    rcases hpop : popMax q2 with _ | ⟨m, r⟩ <;> rw [hpop] at h <;> dsimp only at h
    · cases h
    · split at h <;> cases h

theorem popMax_perm :
    ∀ {q : List State} {s : State} {rest : List State},
      popMax q = some (s, rest) → q.Perm (s :: rest) := by
  intro q
  induction q with
  | nil => intro s rest h; cases h
  | cons a q2 ih =>
    intro s rest h
    rw [popMax] at h
    rcases hpop : popMax q2 with _ | ⟨m, r⟩ <;> rw [hpop] at h <;> dsimp only at h
    · simp only [Option.some.injEq, Prod.mk.injEq] at h
      obtain ⟨rfl, rfl⟩ := h
      rw [popMax_none hpop]
    · have hperm := ih hpop
      split at h
      · simp only [Option.some.injEq, Prod.mk.injEq] at h
        obtain ⟨rfl, rfl⟩ := h
        exact (hperm.cons a).trans (List.Perm.swap _ _ _)
      · simp only [Option.some.injEq, Prod.mk.injEq] at h
        obtain ⟨rfl, rfl⟩ := h
        exact List.Perm.refl _

theorem queuePhi_perm (B p0 : Nat) {q1 q2 : List State} (h : q1.Perm q2) :
    queuePhi B p0 q1 = queuePhi B p0 q2 :=
  (h.map _).sum_eq

theorem queuePhi_append (B p0 : Nat) (a b : List State) :
    queuePhi B p0 (a ++ b) = queuePhi B p0 a + queuePhi B p0 b := by
  simp [queuePhi]

theorem queuePhi_cons (B p0 : Nat) (s : State) (q : List State) :
    queuePhi B p0 (s :: q) =
      B ^ (measureState p0 s + 1) + queuePhi B p0 q := by
  simp [queuePhi]

/-- The search loop terminates on every queue satisfying the invariant:
some fuel drains the queue and returns a value. -/
theorem searchRun_terminates (valves : List NormalizedValve)
    (distances : List (List Nat)) (p0 n : Nat) (h0 : 0 < p0) :
    ∀ (q : List State) (best : Nat), (∀ s ∈ q, StateInv p0 n s) →
      ∃ fuel v, searchRun valves distances fuel q best = some v := by
  have hmain : ∀ (m : Nat) (q : List State) (best : Nat),
      queuePhi ((max n 1) ^ p0 + 1) p0 q ≤ m →
      (∀ s ∈ q, StateInv p0 n s) →
      ∃ fuel v, searchRun valves distances fuel q best = some v := by
    intro m
    induction m using Nat.strong_induction_on with
    | _ m ih =>
      intro q best hphi hInv
      rcases hpop : popMax q with _ | ⟨s, rest⟩
      · exact ⟨0, best, by rw [searchRun, hpop]⟩
      · obtain ⟨hs, hrest⟩ := popMax_mem hpop
        have hsInv := hInv s hs
        set B := (max n 1) ^ p0 + 1 with hB
        have hB0 : 0 < B := by omega
        set keep := (searchChildren valves distances s).filter
          (fun c => max best ((s.tick valves).accumulated_flow) <
            c.estimated_total_flow) with hkeepdef
        have hchild := @searchChildren_props valves distances p0 n s h0 hsInv
        have hcount := @searchChildren_count valves distances p0 n s hsInv
        have hInv2 : ∀ x ∈ rest ++ keep, StateInv p0 n x := by
          intro x hx
          rcases List.mem_append.mp hx with h | h
          · exact hInv x (hrest x h)
          · rw [hkeepdef] at h
            exact (hchild x (List.mem_filter.mp h).1).1
        have hphi_q : queuePhi B p0 q =
            B ^ (measureState p0 s + 1) + queuePhi B p0 rest := by
          rw [queuePhi_perm B p0 (popMax_perm hpop), queuePhi_cons]
        have hterm : ∀ c ∈ searchChildren valves distances s,
            B ^ (measureState p0 c + 1) ≤ B ^ (measureState p0 s) := by
          intro c hc
          have hlt := (hchild c hc).2
          exact Nat.pow_le_pow_right (by omega) (by omega)
        have hpow_pos : 0 < B ^ (measureState p0 s) := Nat.pow_pos hB0
        have hkeep_le : queuePhi B p0 keep ≤
            (max n 1) ^ p0 * B ^ (measureState p0 s) := by
          have h1 : ∀ x ∈ keep.map (fun c => B ^ (measureState p0 c + 1)),
              x ≤ B ^ (measureState p0 s) := by
            intro x hx
            obtain ⟨c, hc, rfl⟩ := List.mem_map.mp hx
            rw [hkeepdef] at hc
            exact hterm c (List.mem_filter.mp hc).1
          have h2 := List.sum_le_card_nsmul _ _ h1
          rw [List.length_map, smul_eq_mul] at h2
          have h3 : keep.length ≤ (max n 1) ^ p0 := by
            rw [hkeepdef]
            exact le_trans (List.length_filter_le _ _) hcount
          calc queuePhi B p0 keep
              = (keep.map (fun c => B ^ (measureState p0 c + 1))).sum := rfl
            _ ≤ keep.length * B ^ (measureState p0 s) := h2
            _ ≤ (max n 1) ^ p0 * B ^ (measureState p0 s) :=
                Nat.mul_le_mul_right _ h3
        have hkeep_lt : queuePhi B p0 keep < B ^ (measureState p0 s + 1) := by
          calc queuePhi B p0 keep
              ≤ (max n 1) ^ p0 * B ^ (measureState p0 s) := hkeep_le
            _ = B ^ (measureState p0 s) * (max n 1) ^ p0 := Nat.mul_comm _ _
            _ < B ^ (measureState p0 s) * ((max n 1) ^ p0 + 1) :=
                mul_lt_mul_of_pos_left (Nat.lt_succ_self _) hpow_pos
            _ = B ^ (measureState p0 s) * B := by rw [← hB]
            _ = B ^ (measureState p0 s + 1) := (pow_succ B _).symm
        have hphi2 : queuePhi B p0 (rest ++ keep) < queuePhi B p0 q := by
          rw [queuePhi_append, hphi_q]
          omega
        obtain ⟨f, v, hf⟩ := ih (queuePhi B p0 (rest ++ keep)) (by omega)
          (rest ++ keep) (max best ((s.tick valves).accumulated_flow))
          (Nat.le_refl _) hInv2
        refine ⟨f + 1, v, ?_⟩
        rw [searchRun, hpop]
        exact hf
  intro q best hInv
  exact hmain (queuePhi ((max n 1) ^ p0 + 1) p0 q) q best (Nat.le_refl _) hInv

/-! ## Claim C6 -/

/-- C6: for every valve table, non-empty list of valid start ids and
time budget, the best-first loop of `find_optimal_total_flow`
terminates — some finite fuel drains the priority queue — and yields a
definite value.  (The spec's stated reason is wrong — `time_left` does
not strictly decrease on every tick and the queue can hold states with
`time_left = 0` — but a lexicographic measure over remaining time and
per-agent phase countdowns shrinks with every expansion.) -/
theorem C6_search_terminates (starting_ats : List Nat)
    (valves : List NormalizedValve) (time_left : Nat)
    (hne : starting_ats ≠ [])
    (hvalid : ∀ a ∈ starting_ats, a < valves.length) :
    ∃ fuel v, find_optimal_total_flow starting_ats valves time_left fuel = some v := by
  have h0 : 0 < starting_ats.length := List.length_pos.mpr hne
  have hInit : StateInv starting_ats.length valves.length
      (searchInit starting_ats valves time_left) := by
    refine ⟨?_, ?_, ?_⟩
    · rw [searchInit]
      exact List.length_map _ _
    · intro p hp
      rw [searchInit] at hp
      simp only [List.mem_map] at hp
      obtain ⟨a, _, rfl⟩ := hp
      rw [playerInvEntry]
      exact Nat.zero_le _
    · rw [searchInit]
      simp
  obtain ⟨fuel, v, hf⟩ := searchRun_terminates valves (all_pairs_shortest valves)
    starting_ats.length valves.length h0
    [searchInit starting_ats valves time_left] 0
    (by
      intro s hs
      rcases List.mem_singleton.mp hs with rfl
      exact hInit)
  exact ⟨fuel, v, hf⟩

/-- C6 (witness): termination on the two-valve test table. -/
theorem C6_witness :
    ∃ fuel v, find_optimal_total_flow [0] twoValves 6 fuel = some v :=
  C6_search_terminates [0] twoValves 6 (by decide) (by decide)

end Day16

